import Mathlib

/-!
Verification of the persistent shortcut store of the goto CLI
(src/store.rs), via a shallow embedding in Lean.

Modelling conventions:
* Rust `String`/`PathBuf` are Lean `String`; `PathBuf` equality is string
  equality (stored paths are canonical), and `PathBuf::push` of a relative
  suffix is string concatenation with a single slash.
* `HashMap<String, u64>` is an association list `List (String × Nat)` with
  override-on-insert semantics (`mapInsert`/`mapRemove`/`mapGet`);
  iteration order of a HashMap is unspecified, so file renders of maps are
  compared only up to membership.
* Filesystem queries (`exists`, `is_dir`, `canonicalize`, glob expansion)
  are a capability record `FS`; interactive confirmation is an injected
  boolean (the result of `ConfirmDuplicatePath`).
* The persisted files are `List String` of lines carried inside the
  `Store`; every Rust write of a file becomes a functional update of the
  corresponding field.
* Fallible operations return `Except (Err × Store) …`; the store carried
  in the error is the in-memory state at the Rust `bail!` site, so
  "fails without mutation" is a provable statement.
-/

namespace Goto

/-- Association-list lookup, modelling `HashMap::get`. -/
def mapGet {α : Type} : List (String × α) → String → Option α
  | [], _ => none
  | (k', v) :: t, k => if k = k' then some v else mapGet t k

/-- Removes every binding of a key, modelling `HashMap::remove`. -/
def mapRemove {α : Type} : List (String × α) → String → List (String × α)
  | [], _ => []
  | (k', v) :: t, k => if k' = k then mapRemove t k else (k', v) :: mapRemove t k

/-- Override-insert, modelling `HashMap::insert`. -/
def mapInsert {α : Type} (m : List (String × α)) (k : String) (v : α) :
    List (String × α) :=
  (k, v) :: mapRemove m k

/-- Rust `str::split_once`: split at the first occurrence of `c`. -/
def splitOnce (s : String) (c : Char) : Option (String × String) :=
  match s.toList.findIdx? (fun x => x == c) with
  | none => none
  | some i => some (String.mk (s.toList.take i), String.mk (s.toList.drop (i + 1)))

/-- Numeric value of a list of decimal digits. -/
def digitsToNat (l : List Char) : Nat :=
  l.foldl (fun acc c => acc * 10 + (c.toNat - 48)) 0

/-- Rust `str::parse::<u64>`: optional leading plus sign, at least one
digit, and the value must fit in 64 bits. -/
def parseU64 (s : String) : Option Nat :=
  let l := s.toList
  let l :=
    match l with
    | '+' :: rest => rest
    | _ => l
  if l.isEmpty then none
  else if l.all Char.isDigit then
    let n := digitsToNat l
    if n < 2 ^ 64 then some n else none
  else none

/-- Rust `str::contains` on char lists: does the second list occur inside
the first? -/
def containsList (n : List Char) : List Char → Bool
  | [] => n.isEmpty
  | x :: t => n.isPrefixOf (x :: t) || containsList n t

/-- Rust `str::trim` (both ends, whitespace), in a form the kernel can
evaluate. -/
def strTrim (s : String) : String :=
  String.mk (((s.toList.dropWhile Char.isWhitespace).reverse.dropWhile
    Char.isWhitespace).reverse)

/-- Rust `str::to_lowercase` (ASCII-adequate model). -/
def strLower (s : String) : String :=
  String.mk (s.toList.map Char.toLower)

/-- Rust `str::starts_with`. -/
def strStartsWith (s pre : String) : Bool :=
  pre.toList.isPrefixOf s.toList

/-- Drop the first n characters. -/
def strDrop (s : String) (n : Nat) : String :=
  String.mk (s.toList.drop n)

/-- Rust `str::split` on a single character (keeps empty pieces). -/
def splitCharGo (c : Char) : List Char → List Char → List String
  | [], cur => [String.mk cur.reverse]
  | x :: rest, cur =>
    if x == c then String.mk cur.reverse :: splitCharGo c rest []
    else splitCharGo c rest (x :: cur)

def splitChar (s : String) (c : Char) : List String :=
  splitCharGo c s.toList []

inductive SortMode
  | Added
  | Alpha
  | Recent
deriving DecidableEq, Repr

structure ShortcutEntry where
  keyword : String
  path : String
deriving DecidableEq, Repr

structure SearchResult where
  keyword : String
  path : String
  expiry : Option Nat
deriving DecidableEq, Repr

/-- The glob and regex engines are external crates; their match functions
are abstract boolean predicates. The substring mode is implemented in
store.rs and embedded faithfully. -/
inductive SearchMode
  | Substring (query : String)
  | Glob (globFn : String → Bool)
  | Regex (regexFn : String → Bool)

/-- SearchMode::matches (the name collides with a Lean keyword). -/
def SearchMode.matchesStr : SearchMode → String → Bool
  | SearchMode.Substring query, value =>
      containsList (strLower query).toList (strLower value).toList
  | SearchMode.Glob f, value => f value
  | SearchMode.Regex f, value => f value

structure SearchOptions where
  query : String
  matchKeyword : Bool
  matchPath : Bool
  requireBoth : Bool
  mode : SearchMode
  limit : Option Nat
  within : Option String
  maxDepth : Option Nat

structure AddBehavior where
  force : Bool
  assumeYes : Bool
deriving DecidableEq, Repr

inductive AddOutcome
  | Added (path : String) (expiry : Option Nat) (duplicateKeywords : List String)
  | AlreadyPresent (path : String) (expiry : Option Nat) (expiryChanged : Bool)
  | Replaced (previousPath : String) (newPath : String) (expiry : Option Nat)
deriving DecidableEq, Repr

/-- Error kinds of the store (store.rs reports them as anyhow messages;
the taxonomy follows the distinct bail sites). -/
inductive Err
  | InvalidPath
  | AlreadyExists
  | AbortedByUser
  | NotFound
  | InvalidSortMode
  | KeywordUnderivable
  | InternalError
deriving DecidableEq, Repr

/-- The four persisted files, as lists of lines. -/
structure Files where
  configFile : List String
  metaFile : List String
  recentFile : List String
  userConfigFile : List String
deriving DecidableEq, Repr

structure Store where
  entries : List ShortcutEntry
  expiries : List (String × Nat)
  recents : List (String × Nat)
  sortMode : SortMode
  index : List (String × Nat)
  files : Files
deriving DecidableEq, Repr

/-- Filesystem capabilities used by the store. -/
structure FS where
  pathExists : String → Bool
  isDir : String → Bool
  canon : String → Option String
  globMatches : String → List String

def keywordsOf (s : Store) : List String :=
  s.entries.map (fun e => e.keyword)

/-- store.rs LoadNumberMap: keep lines with an equals sign whose trimmed
value parses as a u64; later lines override earlier ones. -/
def LoadNumberMap (lines : List String) : List (String × Nat) :=
  lines.foldl
    (fun map line =>
      match splitOnce line '=' with
      | none => map
      | some (key, value) =>
        match parseU64 (strTrim value) with
        | none => map
        | some number => mapInsert map key number)
    []

/-- store.rs LoadConfigEntries: keep lines with an equals sign whose
trimmed key and trimmed value are both non-empty; key and value are stored
untrimmed. -/
def LoadConfigEntries : List String → List ShortcutEntry
  | [] => []
  | line :: rest =>
    match splitOnce line '=' with
    | none => LoadConfigEntries rest
    | some (key, value) =>
      if (strTrim key).toList.isEmpty || (strTrim value).toList.isEmpty then
        LoadConfigEntries rest
      else { keyword := key, path := value } :: LoadConfigEntries rest

def ParseSortMode (raw : String) : Except Err SortMode :=
  if raw = "added" then Except.ok SortMode.Added
  else if raw = "alpha" then Except.ok SortMode.Alpha
  else if raw = "recent" then Except.ok SortMode.Recent
  else Except.error Err.InvalidSortMode

/-- store.rs LoadSortMode: first sort_order line wins; missing or
unparseable means Alpha. -/
def LoadSortMode : List String → SortMode
  | [] => SortMode.Alpha
  | line :: rest =>
    match splitOnce line '=' with
    | some (key, value) =>
      if strTrim key = "sort_order" then
        match ParseSortMode (strTrim value) with
        | Except.ok mode => mode
        | Except.error _ => SortMode.Alpha
      else LoadSortMode rest
    | none => LoadSortMode rest

/-- store.rs WriteConfig: one keyword=path line per entry, in order. -/
def RenderConfig (entries : List ShortcutEntry) : List String :=
  entries.map (fun e => e.keyword ++ "=" ++ e.path)

/-- store.rs WriteMeta / WriteRecents: one key=value line per binding. -/
def RenderNumberMap (m : List (String × Nat)) : List String :=
  m.map (fun p => p.1 ++ "=" ++ toString p.2)

/-- Accumulator of the expiry-pruning loop in Store::Load. -/
structure LoadAcc where
  entries : List ShortcutEntry
  expiries : List (String × Nat)
  index : List (String × Nat)
  removedExpired : Bool
deriving DecidableEq, Repr

/-- The per-entry loop of Store::Load: drop an entry whose expiry is due
(removing its expiry record), otherwise append it and index it. -/
def loadLoop (now : Nat) : List ShortcutEntry → LoadAcc → LoadAcc
  | [], acc => acc
  | e :: rest, acc =>
    match mapGet acc.expiries e.keyword with
    | some expiry =>
      if expiry ≤ now then
        loadLoop now rest
          { acc with expiries := mapRemove acc.expiries e.keyword, removedExpired := true }
      else
        loadLoop now rest
          { acc with
            entries := acc.entries ++ [e],
            index := mapInsert acc.index e.keyword acc.entries.length }
    | none =>
      loadLoop now rest
        { acc with
          entries := acc.entries ++ [e],
          index := mapInsert acc.index e.keyword acc.entries.length }

/-- Store::Load as a pure function of the file contents and the current
epoch second. If pruning removed anything, the entries and expiry files
are rewritten before Load returns. -/
def Load (files : Files) (now : Nat) : Store :=
  let rawEntries := LoadConfigEntries files.configFile
  let out :=
    loadLoop now rawEntries
      { entries := [], expiries := LoadNumberMap files.metaFile, index := [],
        removedExpired := false }
  let files1 :=
    if out.removedExpired then
      { files with
        configFile := RenderConfig out.entries,
        metaFile := RenderNumberMap out.expiries }
    else files
  { entries := out.entries, expiries := out.expiries,
    recents := LoadNumberMap files.recentFile,
    sortMode := LoadSortMode files.userConfigFile,
    index := out.index, files := files1 }

/-- Tokenizer for natural ordering: maximal digit runs become numeric
tokens tagged 0, other characters become tokens tagged 1 holding the char
code. -/
def tokensGo (pending : Option Nat) : List Char → List (Nat × Nat)
  | [] =>
    match pending with
    | some n => [(0, n)]
    | none => []
  | c :: rest =>
    if c.isDigit then tokensGo (some ((pending.getD 0) * 10 + (c.toNat - 48))) rest
    else
      match pending with
      | some n => (0, n) :: (1, c.toNat) :: tokensGo none rest
      | none => (1, c.toNat) :: tokensGo none rest

def natTokens (s : String) : List (Nat × Nat) := tokensGo none s.toList

def pairCmp (a b : Nat × Nat) : Ordering :=
  match compare a.1 b.1 with
  | Ordering.eq => compare a.2 b.2
  | o => o

def lexCmp : List (Nat × Nat) → List (Nat × Nat) → Ordering
  | [], [] => Ordering.eq
  | [], _ :: _ => Ordering.lt
  | _ :: _, [] => Ordering.gt
  | a :: as, b :: bs =>
    match pairCmp a b with
    | Ordering.eq => lexCmp as bs
    | o => o

/-- Modelled from the spec: the Alpha comparator is natord::compare, an
external crate whose source is not part of this repository; the spec asks
for a natural (human-friendly, numeric-aware) lexicographic order in which
maximal digit runs compare by numeric value and other characters compare
by character, e.g. item2 sorts before item10. -/
def natCompare (a b : String) : Ordering :=
  lexCmp (natTokens a) (natTokens b)

def ordNotGT : Ordering → Bool
  | Ordering.gt => false
  | _ => true

def natLe (a b : String) : Bool := ordNotGT (natCompare a b)

def tsOf (recents : List (String × Nat)) (k : String) : Nat :=
  (mapGet recents k).getD 0

/-- Store::SortedKeywords: Added keeps the stored order; Alpha sorts with
the natural comparator; Recent sorts descending by recency timestamp
(missing timestamps count as 0). Rust sort_by is a stable sort, matching
mergeSort. -/
def SortedKeywords (s : Store) : List String :=
  let keywords := s.entries.map (fun e => e.keyword)
  match s.sortMode with
  | SortMode.Added => keywords
  | SortMode.Alpha => keywords.mergeSort natLe
  | SortMode.Recent =>
      keywords.mergeSort (fun a b => decide (tsOf s.recents b ≤ tsOf s.recents a))

/-- Effective matchKeyword flag: when neither field flag is set, both
fields are searched. -/
def effMatchKeyword (o : SearchOptions) : Bool :=
  if o.matchKeyword || o.matchPath then o.matchKeyword else true

def effMatchPath (o : SearchOptions) : Bool :=
  if o.matchKeyword || o.matchPath then o.matchPath else true

/-- Path components in the sense of Rust Path::components: empty and
single-dot segments vanish, a leading slash becomes a root component. -/
def pathComponents (p : String) : List String :=
  let comps := (splitChar p '/').filter (fun c => c ≠ "" && c ≠ ".")
  if strStartsWith p "/" then "/" :: comps else comps

/-- The within/maxDepth scope test of Store::Search: the canonicalized
entry path must lie under the root, with at most maxDepth extra
components. -/
def searchScopeOk (fs : FS) (o : SearchOptions) (e : ShortcutEntry) : Bool :=
  match o.within with
  | none => true
  | some root =>
    match fs.canon e.path with
    | none => false
    | some canonical =>
      let cc := pathComponents canonical
      let rc := pathComponents root
      if rc.isPrefixOf cc then
        match o.maxDepth with
        | none => true
        | some maxDepth => cc.length - rc.length ≤ maxDepth
      else false

/-- The loop body of Store::Search: walk keywords in sorted order,
look up the entry, apply scope and predicate, collect up to the limit.
The limit is checked after each push, mirroring the Rust break. -/
def searchGo (s : Store) (fs : FS) (o : SearchOptions) (mk mp : Bool) :
    List String → List SearchResult → List SearchResult
  | [], results => results
  | keyword :: rest, results =>
    match s.entries.find? (fun e => e.keyword = keyword) with
    | none => searchGo s fs o mk mp rest results
    | some entry =>
      if searchScopeOk fs o entry = false then searchGo s fs o mk mp rest results
      else
        let keywordMatches := if mk then o.mode.matchesStr entry.keyword else false
        let pathMatches := if mp then o.mode.matchesStr entry.path else false
        let includeIt :=
          if o.requireBoth && mk && mp then keywordMatches && pathMatches
          else (mk && keywordMatches) || (mp && pathMatches)
        if includeIt then
          let results1 :=
            results ++
              [{ keyword := entry.keyword, path := entry.path,
                 expiry := mapGet s.expiries entry.keyword }]
          match o.limit with
          | some limit =>
            if limit ≤ results1.length then results1
            else searchGo s fs o mk mp rest results1
          | none => searchGo s fs o mk mp rest results1
        else searchGo s fs o mk mp rest results

def Search (fs : FS) (s : Store) (o : SearchOptions) : List SearchResult :=
  searchGo s fs o (effMatchKeyword o) (effMatchPath o) (SortedKeywords s) []

/-- Store::ApplyExpiry: set or clear the expiry for a keyword, reporting
the new value and whether it changed. -/
def applyExpiry (expiries : List (String × Nat)) (keyword : String)
    (expire : Option Nat) : List (String × Nat) × Option Nat × Bool :=
  let previous := mapGet expiries keyword
  let expiries1 :=
    match expire with
    | some ts => mapInsert expiries keyword ts
    | none => mapRemove expiries keyword
  let current := mapGet expiries1 keyword
  (expiries1, current, decide (previous ≠ current))

/-- ConfirmDuplicatePath: refuses when stdin is not a terminal, otherwise
accepts a trimmed, lowercased answer of y or yes. -/
def ConfirmDuplicatePath (isTerminal : Bool) (input : String) : Bool :=
  if isTerminal = false then false
  else
    let normalized := strLower (strTrim input)
    normalized = "y" || normalized = "yes"

/-- Store::AddShortcut. The `confirm` argument is the boolean outcome of
the injected duplicate-path confirmation. Errors carry the store at the
bail site (no bail site in AddShortcut follows a mutation). -/
def AddShortcut (fs : FS) (confirm : Bool) (s : Store) (keyword : String)
    (targetPath : String) (expire : Option Nat) (behavior : AddBehavior) :
    Except (Err × Store) (Store × AddOutcome) :=
  if fs.pathExists targetPath = false then Except.error (Err.InvalidPath, s)
  else if fs.isDir targetPath = false then Except.error (Err.InvalidPath, s)
  else
    match fs.canon targetPath with
    | none => Except.error (Err.InvalidPath, s)
    | some absPath =>
      let duplicateKeywords :=
        (s.entries.filter (fun e => e.path = absPath && e.keyword ≠ keyword)).map
          (fun e => e.keyword)
      match mapGet s.index keyword with
      | some position =>
        match s.entries[position]? with
        | none => Except.error (Err.InternalError, s)
        | some existing =>
          if existing.path = absPath then
            let ae := applyExpiry s.expiries keyword expire
            let s1 := { s with expiries := ae.1 }
            let s2 :=
              if ae.2.2 = true then
                { s1 with files := { s1.files with metaFile := RenderNumberMap ae.1 } }
              else s1
            Except.ok (s2, AddOutcome.AlreadyPresent existing.path ae.2.1 ae.2.2)
          else if behavior.force = false then Except.error (Err.AlreadyExists, s)
          else
            let entries1 := s.entries.set position { existing with path := absPath }
            let ae := applyExpiry s.expiries keyword expire
            let s1 :=
              { s with
                entries := entries1, expiries := ae.1,
                files :=
                  { s.files with
                    configFile := RenderConfig entries1,
                    metaFile := RenderNumberMap ae.1 } }
            Except.ok (s1, AddOutcome.Replaced existing.path absPath ae.2.1)
      | none =>
        if duplicateKeywords ≠ [] ∧ behavior.force = false ∧ behavior.assumeYes = false
            ∧ confirm = false then
          Except.error (Err.AbortedByUser, s)
        else
          let entries1 := s.entries ++ [{ keyword := keyword, path := absPath }]
          let index1 := mapInsert s.index keyword s.entries.length
          let ae := applyExpiry s.expiries keyword expire
          let s1 :=
            { s with
              entries := entries1, expiries := ae.1, index := index1,
              files :=
                { s.files with
                  configFile := RenderConfig entries1,
                  metaFile := RenderNumberMap ae.1 } }
          Except.ok (s1, AddOutcome.Added absPath ae.2.1 duplicateKeywords)

/-- Rust Path::file_name on the modelled path strings: the last
component after dropping empty and single-dot segments, unless it is a
parent-dir marker. -/
def fileName (p : String) : Option String :=
  let comps := (splitChar p '/').filter (fun c => c ≠ "" && c ≠ ".")
  match comps.getLast? with
  | none => none
  | some c => if c = ".." then none else some c

/-- The loop of Store::AddBulk over the glob matches. -/
def bulkGo (fs : FS) (confirm : Bool) (behavior : AddBehavior) :
    List String → Store → List String → Except (Err × Store) (Store × List String)
  | [], s, added => Except.ok (s, added)
  | path :: rest, s, added =>
    if fs.isDir path = false then bulkGo fs confirm behavior rest s added
    else
      match fileName path with
      | none => Except.error (Err.KeywordUnderivable, s)
      | some keyword =>
        if (mapGet s.index keyword).isSome then bulkGo fs confirm behavior rest s added
        else
          match AddShortcut fs confirm s keyword path none behavior with
          | Except.error e => Except.error e
          | Except.ok (s1, _) => bulkGo fs confirm behavior rest s1 (added ++ [keyword])

def AddBulk (fs : FS) (confirm : Bool) (s : Store) (pattern : String)
    (behavior : AddBehavior) : Except (Err × Store) (Store × List String) :=
  bulkGo fs confirm behavior (fs.globMatches pattern) s []

/-- Store::FetchEntry. -/
def FetchEntry (s : Store) (keyword : String) : Except Err ShortcutEntry :=
  match mapGet s.index keyword with
  | none => Except.error Err.NotFound
  | some i =>
    match s.entries[i]? with
    | none => Except.error Err.InternalError
    | some e => Except.ok e

/-- Store::CopyShortcut: a new value that is absolute or an existing
directory is treated as a path (keyword from its basename), otherwise as
a new keyword for the existing entry's path. -/
def CopyShortcut (fs : FS) (confirm : Bool) (s : Store) (existing : String)
    (newValue : String) (behavior : AddBehavior) : Except (Err × Store) Store :=
  match FetchEntry s existing with
  | Except.error e => Except.error (e, s)
  | Except.ok existingEntry =>
    let targetIsPath := strStartsWith newValue "/" || fs.isDir newValue
    if targetIsPath then
      match fileName newValue with
      | none => Except.error (Err.KeywordUnderivable, s)
      | some destKeyword =>
        (AddShortcut fs confirm s destKeyword newValue none behavior).map (fun p => p.1)
    else
      (AddShortcut fs confirm s newValue existingEntry.path none behavior).map
        (fun p => p.1)

/-- Store::RebuildIndex: re-insert every keyword with its position. -/
def rebuildGo : Nat → List ShortcutEntry → List (String × Nat) → List (String × Nat)
  | _, [], m => m
  | i, e :: rest, m => rebuildGo (i + 1) rest (mapInsert m e.keyword i)

def rebuildIndex (entries : List ShortcutEntry) : List (String × Nat) :=
  rebuildGo 0 entries []

/-- Store::RemoveShortcut: remove the entry, rebuild the index, drop the
keyword from both maps, persist all three files. -/
def RemoveShortcut (s : Store) (keyword : String) : Except (Err × Store) Store :=
  match mapGet s.index keyword with
  | none => Except.error (Err.NotFound, s)
  | some position =>
    let entries1 := s.entries.eraseIdx position
    let expiries1 := mapRemove s.expiries keyword
    let recents1 := mapRemove s.recents keyword
    Except.ok
      { s with
        entries := entries1, expiries := expiries1, recents := recents1,
        index := rebuildIndex entries1,
        files :=
          { s.files with
            configFile := RenderConfig entries1,
            metaFile := RenderNumberMap expiries1,
            recentFile := RenderNumberMap recents1 } }

/-- Store::SetSortMode: parse, rewrite the preference file preserving the
other lines, then update the in-memory mode. -/
def SetSortMode (s : Store) (mode : String) : Except (Err × Store) Store :=
  match ParseSortMode mode with
  | Except.error e => Except.error (e, s)
  | Except.ok parsed =>
    let kept := s.files.userConfigFile.filter
      (fun line => strStartsWith line "sort_order=" = false)
    let value :=
      match parsed with
      | SortMode.Added => "added"
      | SortMode.Alpha => "alpha"
      | SortMode.Recent => "recent"
    Except.ok
      { s with
        sortMode := parsed,
        files := { s.files with userConfigFile := kept ++ ["sort_order=" ++ value] } }

/-- Store::UpdateRecentUsage at a given epoch second. -/
def UpdateRecentUsage (s : Store) (keyword : String) (now : Nat) : Store :=
  let recents1 := mapInsert s.recents keyword now
  { s with recents := recents1,
           files := { s.files with recentFile := RenderNumberMap recents1 } }

structure ResolvedJump where
  keyword : String
  basePath : String
  targetPath : String
deriving DecidableEq, Repr

/-- The cumulative slash-joined prefixes built by Store::ResolveJump,
shortest first (the Rust code then reverses them). -/
def prefixAcc (current : String) : List String → List String
  | [] => []
  | part :: rest =>
    let current1 := current ++ "/" ++ part
    current1 :: prefixAcc current1 rest

def buildPrefixes : List String → List String
  | [] => []
  | part :: rest => part :: prefixAcc part rest

/-- Rust input.strip_prefix(p).unwrap_or(""). -/
def dropPre (input p : String) : String :=
  if strStartsWith input p then strDrop input p.length else ""

/-- Rust str::trim_start_matches of the slash character. -/
def dropSlashes (s : String) : String :=
  String.mk (s.toList.dropWhile (fun c => c == '/'))

/-- Keyword lookup as done by ResolveJump: index position, then entry. -/
def lookupEntry (s : Store) (p : String) : Option ShortcutEntry :=
  (mapGet s.index p).bind (fun i => s.entries[i]?)

/-- The prefix loop of Store::ResolveJump; targetPath is the entry path
with the slash-stripped remainder pushed onto it. -/
def resolveGo (s : Store) (input : String) : List String → Except Err ResolvedJump
  | [] => Except.error Err.NotFound
  | p :: rest =>
    match lookupEntry s p with
    | none => resolveGo s input rest
    | some entry =>
      let remainder := dropSlashes (dropPre input p)
      Except.ok
        { keyword := entry.keyword, basePath := entry.path,
          targetPath :=
            if remainder.isEmpty then entry.path else entry.path ++ "/" ++ remainder }

def ResolveJump (s : Store) (input : String) : Except Err ResolvedJump :=
  resolveGo s input (buildPrefixes (splitChar input '/')).reverse

/-- The specification's description of jump resolution: every non-empty
slash-delimited prefix of the input, longest first, is tried as a keyword
lookup; the first registered one wins. -/
def specResolveJump (s : Store) (input : String) : Except Err ResolvedJump :=
  resolveGo s input
    (((buildPrefixes (splitChar input '/')).reverse).filter (fun p => p.isEmpty = false))

/-- The mutating operations of the store API, with their injected
environment choices (confirmation outcome, timestamps). -/
inductive Op
  | add (confirm : Bool) (keyword targetPath : String) (expire : Option Nat)
      (behavior : AddBehavior)
  | bulk (confirm : Bool) (pattern : String) (behavior : AddBehavior)
  | copy (confirm : Bool) (existing newValue : String) (behavior : AddBehavior)
  | remove (keyword : String)
  | setSort (mode : String)
  | recent (keyword : String) (now : Nat)

/-- Run one operation; on failure keep the store carried by the error
(the in-memory state at the bail site). -/
def runOp (fs : FS) (s : Store) : Op → Store
  | Op.add confirm keyword targetPath expire behavior =>
    match AddShortcut fs confirm s keyword targetPath expire behavior with
    | Except.ok (s1, _) => s1
    | Except.error (_, s1) => s1
  | Op.bulk confirm pattern behavior =>
    match AddBulk fs confirm s pattern behavior with
    | Except.ok (s1, _) => s1
    | Except.error (_, s1) => s1
  | Op.copy confirm existing newValue behavior =>
    match CopyShortcut fs confirm s existing newValue behavior with
    | Except.ok s1 => s1
    | Except.error (_, s1) => s1
  | Op.remove keyword =>
    match RemoveShortcut s keyword with
    | Except.ok s1 => s1
    | Except.error (_, s1) => s1
  | Op.setSort mode =>
    match SetSortMode s mode with
    | Except.ok s1 => s1
    | Except.error (_, s1) => s1
  | Op.recent keyword now => UpdateRecentUsage s keyword now

def runOps (fs : FS) (s : Store) (ops : List Op) : Store :=
  ops.foldl (runOp fs) s

/-! ### Association-list map lemmas -/

theorem mapGet_mapRemove {α : Type} (m : List (String × α)) (k k' : String) :
    mapGet (mapRemove m k) k' = if k' = k then none else mapGet m k' := by
  induction m with
  | nil => simp [mapRemove, mapGet]
  | cons p t ih =>
    obtain ⟨pk, pv⟩ := p
    by_cases hpk : pk = k
    · subst hpk
      have hrm : mapRemove ((pk, pv) :: t) pk = mapRemove t pk := by
        simp [mapRemove]
      rw [hrm, ih]
      by_cases hk : k' = pk
      · simp [hk]
      · simp [mapGet, hk]
    · simp only [mapRemove, if_neg hpk]
      by_cases hk : k' = pk
      · subst hk
        have hne : k' ≠ k := fun h => hpk h
        simp [mapGet, hne]
      · simp [mapGet, hk, ih]

theorem mapGet_mapInsert {α : Type} (m : List (String × α)) (k : String) (v : α)
    (k' : String) :
    mapGet (mapInsert m k v) k' = if k' = k then some v else mapGet m k' := by
  by_cases hk : k' = k
  · subst hk; simp [mapInsert, mapGet]
  · simp [mapInsert, mapGet, hk, mapGet_mapRemove]

theorem mapRemove_keys_sub {α : Type} (m : List (String × α)) (k : String) (p : String × α)
    (h : p ∈ mapRemove m k) : p ∈ m := by
  induction m with
  | nil => simp [mapRemove] at h
  | cons q t ih =>
    obtain ⟨qk, qv⟩ := q
    by_cases hq : qk = k
    · subst hq
      simp only [mapRemove, if_pos rfl] at h
      exact List.mem_cons_of_mem _ (ih h)
    · simp only [mapRemove, if_neg hq] at h
      rcases List.mem_cons.mp h with h1 | h1
      · exact h1 ▸ List.mem_cons_self _ _
      · exact List.mem_cons_of_mem _ (ih h1)

/-! ### splitOnce and render/reload lemmas -/

/-- A string with no equals-sign character; keys produced by splitOnce
always satisfy this. -/
def NoEqChar (k : String) : Prop := ∀ a ∈ k.toList, (a == '=') = false

theorem findIdx?_append_first {p : Char → Bool} :
    ∀ (l₁ : List Char) (x : Char) (l₂ : List Char) (i : Nat),
      (∀ a ∈ l₁, p a = false) → p x = true →
      List.findIdx? p (l₁ ++ x :: l₂) i = some (i + l₁.length) := by
  intro l₁
  induction l₁ with
  | nil =>
    intro x l₂ i _ hx
    simp [List.findIdx?_cons, hx]
  | cons a t ih =>
    intro x l₂ i h hx
    have ha : p a = false := h a (List.mem_cons_self _ _)
    have ht : ∀ b ∈ t, p b = false := fun b hb => h b (List.mem_cons_of_mem _ hb)
    simp only [List.cons_append, List.findIdx?_cons, ha, Bool.false_eq_true, if_false,
      ih x l₂ (i + 1) ht hx, List.length_cons]
    congr 1
    omega

theorem findIdx?_take {p : Char → Bool} :
    ∀ (l : List Char) (i j : Nat), List.findIdx? p l j = some (i + j) →
      ∀ a ∈ l.take i, p a = false := by
  intro l
  induction l with
  | nil => intro i j h; simp [List.findIdx?] at h
  | cons x t ih =>
    intro i j h a ha
    cases i with
    | zero => simp at ha
    | succ i' =>
      rw [List.findIdx?_cons] at h
      by_cases hx : p x = true
      · rw [if_pos hx] at h
        injection h with h
        omega
      · rw [if_neg hx] at h
        simp only [List.take_succ_cons] at ha
        rcases List.mem_cons.mp ha with rfl | ha
        · exact Bool.eq_false_iff.mpr hx
        · exact ih i' (j + 1) (by rw [h]; congr 1; omega) a ha

theorem splitOnce_key_no_eq {s : String} {k v : String}
    (h : splitOnce s '=' = some (k, v)) : NoEqChar k := by
  unfold splitOnce at h
  cases hf : s.toList.findIdx? (fun x => x == '=') with
  | none => rw [hf] at h; exact absurd h (by simp)
  | some i =>
    rw [hf] at h
    injection h with h
    injection h with h1 h2
    intro a ha
    have hk : k.toList = s.toList.take i := by
      rw [← h1]
      rfl
    rw [hk] at ha
    have hf0 : List.findIdx? (fun x => x == '=') s.toList 0 = some (i + 0) := by
      simpa using hf
    exact findIdx?_take s.toList i 0 hf0 a ha

theorem splitOnce_render (k v : String) (hk : NoEqChar k) :
    splitOnce (k ++ "=" ++ v) '=' = some (k, v) := by
  have hlist : (k ++ "=" ++ v).toList = k.toList ++ '=' :: v.toList := by
    have h0 : (k ++ "=" ++ v).toList = (k.toList ++ ['=']) ++ v.toList := rfl
    rw [h0, List.append_assoc]
    rfl
  unfold splitOnce
  rw [hlist]
  rw [findIdx?_append_first k.toList '=' v.toList 0 hk (by simp)]
  simp only [Nat.zero_add]
  have h1 : (k.toList ++ '=' :: v.toList).take k.toList.length = k.toList :=
    List.take_left _ _
  have h2 : (k.toList ++ '=' :: v.toList).drop (k.toList.length + 1) = v.toList := by
    have h3 : k.toList ++ '=' :: v.toList = (k.toList ++ ['=']) ++ v.toList := by simp
    have hlen : (k.toList ++ ['=']).length = k.toList.length + 1 := by simp
    rw [h3, ← hlen]
    exact List.drop_left _ _
  rw [h1, h2]
  rfl

theorem LoadNumberMap_keys_no_eq (lines : List String) :
    ∀ p ∈ LoadNumberMap lines, NoEqChar p.1 := by
  unfold LoadNumberMap
  suffices h : ∀ (acc : List (String × Nat)), (∀ p ∈ acc, NoEqChar p.1) →
      ∀ p ∈ lines.foldl
        (fun map line =>
          match splitOnce line '=' with
          | none => map
          | some (key, value) =>
            match parseU64 (strTrim value) with
            | none => map
            | some number => mapInsert map key number)
        acc, NoEqChar p.1 by
    exact h [] (by simp)
  induction lines with
  | nil => intro acc hacc; simpa using hacc
  | cons line rest ih =>
    intro acc hacc
    simp only [List.foldl_cons]
    apply ih
    cases hsp : splitOnce line '=' with
    | none => simpa [hsp] using hacc
    | some kv =>
      obtain ⟨key, value⟩ := kv
      cases hp : parseU64 (strTrim value) with
      | none => simpa [hsp, hp] using hacc
      | some n =>
        simp only [hsp, hp]
        intro p hp'
        rcases List.mem_cons.mp hp' with rfl | hp'
        · exact splitOnce_key_no_eq hsp
        · exact hacc p (mapRemove_keys_sub _ _ _ hp')

theorem LoadConfigEntries_keys_no_eq (lines : List String) :
    ∀ e ∈ LoadConfigEntries lines, NoEqChar e.keyword := by
  induction lines with
  | nil => simp [LoadConfigEntries]
  | cons line rest ih =>
    intro e he
    unfold LoadConfigEntries at he
    split at he
    · exact ih e he
    · rename_i key value hsp
      split at he
      · exact ih e he
      · rcases List.mem_cons.mp he with rfl | he
        · exact splitOnce_key_no_eq hsp
        · exact ih e he

theorem LoadNumberMap_render_none (m : List (String × Nat)) (k : String)
    (hne : ∀ p ∈ m, p.1 ≠ k) (hok : ∀ p ∈ m, NoEqChar p.1) :
    mapGet (LoadNumberMap (RenderNumberMap m)) k = none := by
  unfold LoadNumberMap RenderNumberMap
  suffices h : ∀ (acc : List (String × Nat)), mapGet acc k = none →
      mapGet ((m.map (fun p => p.1 ++ "=" ++ toString p.2)).foldl
        (fun map line =>
          match splitOnce line '=' with
          | none => map
          | some (key, value) =>
            match parseU64 (strTrim value) with
            | none => map
            | some number => mapInsert map key number)
        acc) k = none by
    exact h [] rfl
  induction m with
  | nil => intro acc hacc; simpa using hacc
  | cons p t ih =>
    intro acc hacc
    have hp1 : p.1 ≠ k := hne p (List.mem_cons_self _ _)
    have hok1 : NoEqChar p.1 := hok p (List.mem_cons_self _ _)
    have hnet : ∀ q ∈ t, q.1 ≠ k := fun q hq => hne q (List.mem_cons_of_mem _ hq)
    have hokt : ∀ q ∈ t, NoEqChar q.1 := fun q hq => hok q (List.mem_cons_of_mem _ hq)
    simp only [List.map_cons, List.foldl_cons, splitOnce_render p.1 (toString p.2) hok1]
    have ihx := ih hnet hokt
    cases hpn : parseU64 (strTrim (toString p.2)) with
    | none => exact ihx acc hacc
    | some n =>
      apply ihx
      rw [mapGet_mapInsert]
      simp only [hacc, if_neg (fun h => hp1 (Eq.symm h))]

theorem LoadConfigEntries_render_keys (es : List ShortcutEntry)
    (hok : ∀ e ∈ es, NoEqChar e.keyword) :
    ∀ e' ∈ LoadConfigEntries (RenderConfig es),
      e'.keyword ∈ es.map (fun e => e.keyword) := by
  induction es with
  | nil => simp [RenderConfig, LoadConfigEntries]
  | cons e t ih =>
    intro e' he'
    have hok1 : NoEqChar e.keyword := hok e (List.mem_cons_self _ _)
    have hokt : ∀ x ∈ t, NoEqChar x.keyword := fun x hx => hok x (List.mem_cons_of_mem _ hx)
    simp only [RenderConfig, List.map_cons] at he'
    unfold LoadConfigEntries at he'
    split at he'
    · rename_i hsp
      rw [splitOnce_render e.keyword e.path hok1] at hsp
      exact absurd hsp (by simp)
    · rename_i key value hsp
      rw [splitOnce_render e.keyword e.path hok1] at hsp
      injection hsp with hsp
      injection hsp with hsp1 hsp2
      subst hsp1
      subst hsp2
      split at he'
      · exact List.mem_cons_of_mem _ (ih hokt e' he')
      · rcases List.mem_cons.mp he' with rfl | he'
        · exact List.mem_cons_self _ _
        · exact List.mem_cons_of_mem _ (ih hokt e' he')

/-! ### The keyword-uniqueness invariant -/

/-- The index is an exact mirror of the entries: every indexed position
holds the entry with that keyword, and every entry is indexed. -/
def IndexOkL (entries : List ShortcutEntry) (index : List (String × Nat)) : Prop :=
  (∀ k i, mapGet index k = some i → ∃ e, entries[i]? = some e ∧ e.keyword = k) ∧
  (∀ e, e ∈ entries → (mapGet index e.keyword).isSome = true)

def InvL (entries : List ShortcutEntry) (index : List (String × Nat)) : Prop :=
  (entries.map (fun e => e.keyword)).Nodup ∧ IndexOkL entries index

def Inv (s : Store) : Prop := InvL s.entries s.index

theorem InvL_fresh {entries : List ShortcutEntry} {index : List (String × Nat)}
    (h : InvL entries index) {k : String} (hk : mapGet index k = none) :
    k ∉ entries.map (fun e => e.keyword) := by
  intro hmem
  obtain ⟨e, he, hek⟩ := List.mem_map.mp hmem
  have := h.2.2 e he
  rw [hek, hk] at this
  simp at this

theorem set_self_of_getElem? {α : Type} :
    ∀ (l : List α) (i : Nat) (a : α), l[i]? = some a → l.set i a = l := by
  intro l
  induction l with
  | nil => intro i a h; simp at h
  | cons x t ih =>
    intro i a h
    cases i with
    | zero => simp at h; simp [h]
    | succ i' =>
      simp only [List.getElem?_cons_succ] at h
      simp [List.set_cons_succ, ih i' a h]

theorem InvL_append {entries : List ShortcutEntry} {index : List (String × Nat)}
    (h : InvL entries index) {k p : String}
    (hk : k ∉ entries.map (fun e => e.keyword)) :
    InvL (entries ++ [{ keyword := k, path := p }])
      (mapInsert index k entries.length) := by
  obtain ⟨hnd, hidx1, hidx2⟩ := h
  refine ⟨?_, ?_, ?_⟩
  · rw [List.map_append]
    rw [List.nodup_append]
    refine ⟨hnd, by simp, ?_⟩
    intro a ha hb
    simp only [List.map_cons, List.map_nil, List.mem_cons, List.not_mem_nil] at hb
    rcases hb with rfl | hb
    · exact hk ha
    · exact hb.elim
  · intro k' i hget
    rw [mapGet_mapInsert] at hget
    by_cases hkk : k' = k
    · rw [if_pos hkk] at hget
      injection hget with hget
      subst hget
      refine ⟨{ keyword := k, path := p }, ?_, hkk.symm ▸ rfl⟩
      exact List.getElem?_concat_length _ _
    · rw [if_neg hkk] at hget
      obtain ⟨e, he, hek⟩ := hidx1 k' i hget
      refine ⟨e, ?_, hek⟩
      have hlt : i < entries.length := by
        rcases List.getElem?_eq_some.mp he with ⟨hl, _⟩
        exact hl
      rw [List.getElem?_append, if_pos hlt]
      exact he
  · intro e he
    rcases List.mem_append.mp he with he | he
    · rw [mapGet_mapInsert]
      by_cases hkk : e.keyword = k
      · rw [if_pos hkk]; rfl
      · rw [if_neg hkk]; exact hidx2 e he
    · simp only [List.mem_singleton] at he
      subst he
      rw [mapGet_mapInsert, if_pos rfl]
      rfl

theorem InvL_set_path {entries : List ShortcutEntry} {index : List (String × Nat)}
    (h : InvL entries index) {pos : Nat} {ex : ShortcutEntry} {p : String}
    (hget : entries[pos]? = some ex) :
    InvL (entries.set pos { ex with path := p }) index := by
  obtain ⟨hnd, hidx1, hidx2⟩ := h
  have hmap : (entries.set pos { ex with path := p }).map (fun e => e.keyword) =
      entries.map (fun e => e.keyword) := by
    rw [List.map_set]
    apply set_self_of_getElem?
    rw [List.getElem?_map, hget]
    rfl
  refine ⟨hmap ▸ hnd, ?_, ?_⟩
  · intro k i hk
    obtain ⟨e, he, hek⟩ := hidx1 k i hk
    by_cases hip : pos = i
    · subst hip
      rw [hget] at he
      injection he with he
      subst he
      refine ⟨{ ex with path := p }, ?_, hek⟩
      rw [List.getElem?_set]
      have hlt : pos < entries.length := by
        rcases List.getElem?_eq_some.mp hget with ⟨hl, _⟩
        exact hl
      simp [hlt]
    · refine ⟨e, ?_, hek⟩
      rw [List.getElem?_set_ne hip]
      exact he
  · intro e he
    rcases List.mem_or_eq_of_mem_set he with he | he
    · exact hidx2 e he
    · subst he
      exact hidx2 ex (List.getElem?_mem hget)

/-- Position of the first entry with the given keyword. -/
def keyIdx : List ShortcutEntry → String → Option Nat
  | [], _ => none
  | e :: rest, k =>
    if e.keyword = k then some 0 else (keyIdx rest k).map (fun n => n + 1)

theorem keyIdx_none_iff (es : List ShortcutEntry) (k : String) :
    keyIdx es k = none ↔ k ∉ es.map (fun e => e.keyword) := by
  induction es with
  | nil => simp [keyIdx]
  | cons e t ih =>
    by_cases hk : e.keyword = k
    · simp [keyIdx, hk]
    · simp [keyIdx, hk, ih, fun h => hk (Eq.symm h)]
      intro h
      exact fun hh => hk hh.symm

theorem keyIdx_some (es : List ShortcutEntry) (k : String) (j : Nat)
    (h : keyIdx es k = some j) : ∃ e, es[j]? = some e ∧ e.keyword = k := by
  induction es generalizing j with
  | nil => simp [keyIdx] at h
  | cons e t ih =>
    unfold keyIdx at h
    by_cases hk : e.keyword = k
    · rw [if_pos hk] at h
      injection h with h
      subst h
      exact ⟨e, by simp, hk⟩
    · rw [if_neg hk] at h
      cases hj : keyIdx t k with
      | none => rw [hj] at h; simp at h
      | some j' =>
        rw [hj] at h
        simp only [Option.map_some'] at h
        injection h with h
        subst h
        obtain ⟨e', he', hek⟩ := ih j' hj
        exact ⟨e', by simpa using he', hek⟩

theorem rebuildGo_get (es : List ShortcutEntry)
    (hnd : (es.map (fun e => e.keyword)).Nodup) :
    ∀ (i : Nat) (m : List (String × Nat)) (k : String),
      mapGet (rebuildGo i es m) k =
        match keyIdx es k with
        | some n => some (i + n)
        | none => mapGet m k := by
  induction es with
  | nil => intro i m k; simp [rebuildGo, keyIdx]
  | cons e t ih =>
    intro i m k
    have hndt : (t.map (fun e => e.keyword)).Nodup := (List.nodup_cons.mp hnd).2
    have hnotin : e.keyword ∉ t.map (fun x => x.keyword) := (List.nodup_cons.mp hnd).1
    simp only [rebuildGo]
    rw [ih hndt]
    by_cases hk : e.keyword = k
    · subst hk
      have h0 : keyIdx t e.keyword = none := (keyIdx_none_iff _ _).mpr hnotin
      simp [keyIdx, h0, mapGet_mapInsert]
    · cases hj : keyIdx t k with
      | none =>
        simp only [keyIdx, if_neg hk, hj, Option.map_none']
        rw [mapGet_mapInsert, if_neg (fun h => hk h.symm)]
      | some n =>
        simp only [keyIdx, if_neg hk, hj, Option.map_some']
        congr 1
        omega

theorem InvL_rebuild (es : List ShortcutEntry)
    (hnd : (es.map (fun e => e.keyword)).Nodup) :
    InvL es (rebuildIndex es) := by
  refine ⟨hnd, ?_, ?_⟩
  · intro k i hk
    unfold rebuildIndex at hk
    rw [rebuildGo_get es hnd 0 [] k] at hk
    cases hj : keyIdx es k with
    | none => rw [hj] at hk; simp [mapGet] at hk
    | some n =>
      rw [hj] at hk
      injection hk with hk
      subst hk
      simpa using keyIdx_some es k n hj
  · intro e he
    unfold rebuildIndex
    rw [rebuildGo_get es hnd 0 [] e.keyword]
    cases hj : keyIdx es e.keyword with
    | none =>
      exfalso
      exact (keyIdx_none_iff _ _).mp hj (List.mem_map.mpr ⟨e, he, rfl⟩)
    | some n => rfl

/-! ### Lemmas about the Load pruning loop -/

theorem loadLoop_removed_mono (now : Nat) :
    ∀ (raw : List ShortcutEntry) (acc : LoadAcc), acc.removedExpired = true →
      (loadLoop now raw acc).removedExpired = true := by
  intro raw
  induction raw with
  | nil => intro acc h; simpa [loadLoop] using h
  | cons e rest ih =>
    intro acc h
    unfold loadLoop
    cases hged : mapGet acc.expiries e.keyword with
    | none => exact ih _ h
    | some expiry =>
      by_cases hle : expiry ≤ now
      · simp only [hle, if_true]
        exact ih _ rfl
      · simp only [hle, if_false]
        exact ih _ h

theorem not_mem_keywords_append {es : List ShortcutEntry} {k : String}
    {e : ShortcutEntry} (h3 : k ∉ es.map (fun x => x.keyword))
    (hek : e.keyword ≠ k) : k ∉ (es ++ [e]).map (fun x => x.keyword) := by
  rw [List.map_append]
  intro hc
  rcases List.mem_append.mp hc with hc | hc
  · exact h3 hc
  · simp only [List.map_cons, List.map_nil, List.mem_singleton] at hc
    exact hek hc.symm

/-- Once a keyword's record and entry are absent everywhere and the
keyword does not occur in the remaining raw entries, the loop keeps all
of that true. -/
theorem loadLoop_absent (now : Nat) :
    ∀ (raw : List ShortcutEntry) (acc : LoadAcc) (k : String),
      mapGet acc.expiries k = none →
      k ∉ raw.map (fun e => e.keyword) →
      k ∉ acc.entries.map (fun e => e.keyword) →
      mapGet acc.index k = none →
      mapGet (loadLoop now raw acc).expiries k = none ∧
        k ∉ (loadLoop now raw acc).entries.map (fun e => e.keyword) ∧
        mapGet (loadLoop now raw acc).index k = none := by
  intro raw
  induction raw with
  | nil => intro acc k h1 _ h3 h4; exact ⟨h1, h3, h4⟩
  | cons e rest ih =>
    intro acc k h1 h2 h3 h4
    have hek : e.keyword ≠ k := by
      intro hcontra
      exact h2 (by simp [hcontra])
    have h2' : k ∉ rest.map (fun e => e.keyword) := by
      intro hcontra
      exact h2 (by simp [hcontra])
    unfold loadLoop
    cases hged : mapGet acc.expiries e.keyword with
    | none =>
      refine ih _ k h1 h2' (not_mem_keywords_append h3 hek) ?_
      rw [mapGet_mapInsert, if_neg (fun h => hek h.symm)]
      exact h4
    | some expiry =>
      by_cases hle : expiry ≤ now
      · simp only [hle, if_true]
        refine ih _ k ?_ h2' h3 h4
        rw [mapGet_mapRemove]
        simp [h1]
      · simp only [hle, if_false]
        refine ih _ k h1 h2' (not_mem_keywords_append h3 hek) ?_
        rw [mapGet_mapInsert, if_neg (fun h => hek h.symm)]
        exact h4

/-- The loop never introduces expiry records. -/
theorem loadLoop_expiries_none (now : Nat) :
    ∀ (raw : List ShortcutEntry) (acc : LoadAcc) (k : String),
      mapGet acc.expiries k = none →
      mapGet (loadLoop now raw acc).expiries k = none := by
  intro raw
  induction raw with
  | nil => intro acc k h; simpa [loadLoop] using h
  | cons e rest ih =>
    intro acc k h
    unfold loadLoop
    cases hged : mapGet acc.expiries e.keyword with
    | none => exact ih _ k h
    | some expiry =>
      by_cases hle : expiry ≤ now
      · simp only [hle, if_true]
        apply ih
        rw [mapGet_mapRemove]
        simp [h]
      · simp only [hle, if_false]
        exact ih _ k h

/-- An entry whose keyword holds a due expiry record loses the record,
and the removed flag is raised (no uniqueness assumption needed). -/
theorem loadLoop_drop_record (now : Nat) :
    ∀ (raw : List ShortcutEntry) (acc : LoadAcc) (k : String) (t : Nat),
      (∃ e ∈ raw, e.keyword = k) →
      mapGet acc.expiries k = some t → t ≤ now →
      mapGet (loadLoop now raw acc).expiries k = none ∧
        (loadLoop now raw acc).removedExpired = true := by
  intro raw
  induction raw with
  | nil => intro acc k t h; simp at h
  | cons e rest ih =>
    intro acc k t hmem hget hle
    unfold loadLoop
    by_cases hek : e.keyword = k
    · cases hged : mapGet acc.expiries e.keyword with
      | none =>
        rw [hek, hget] at hged
        exact absurd hged (by simp)
      | some expiry =>
        have hexp : expiry = t := by
          rw [hek, hget] at hged
          injection hged with hged
          exact hged.symm
        subst hexp
        simp only [hle, if_true]
        constructor
        · apply loadLoop_expiries_none
          rw [mapGet_mapRemove]
          simp [hek]
        · exact loadLoop_removed_mono now rest _ rfl
    · have hmem2 : ∃ x ∈ rest, x.keyword = k := by
        obtain ⟨x, hx, hxk⟩ := hmem
        rcases List.mem_cons.mp hx with rfl | hx
        · exact absurd hxk hek
        · exact ⟨x, hx, hxk⟩
      cases hged : mapGet acc.expiries e.keyword with
      | none => exact ih _ k t hmem2 hget hle
      | some expiry =>
        by_cases hle2 : expiry ≤ now
        · simp only [hle2, if_true]
          refine ih _ k t hmem2 ?_ hle
          rw [mapGet_mapRemove, if_neg (fun h => hek h.symm)]
          exact hget
        · simp only [hle2, if_false]
          exact ih _ k t hmem2 hget hle

/-- With unique raw keywords, a due entry is dropped entirely: it ends up
absent from the entries, the index and the expiry map, and the removed
flag is raised. -/
theorem loadLoop_drop (now : Nat) :
    ∀ (raw : List ShortcutEntry) (acc : LoadAcc) (k : String) (t : Nat),
      (raw.map (fun e => e.keyword)).Nodup →
      (∃ e ∈ raw, e.keyword = k) →
      mapGet acc.expiries k = some t → t ≤ now →
      k ∉ acc.entries.map (fun e => e.keyword) →
      mapGet acc.index k = none →
      mapGet (loadLoop now raw acc).expiries k = none ∧
        k ∉ (loadLoop now raw acc).entries.map (fun e => e.keyword) ∧
        mapGet (loadLoop now raw acc).index k = none ∧
        (loadLoop now raw acc).removedExpired = true := by
  intro raw
  induction raw with
  | nil => intro acc k t _ h; simp at h
  | cons e rest ih =>
    intro acc k t hnd hmem hget hle hent hidx
    have hndr : (rest.map (fun e => e.keyword)).Nodup := (List.nodup_cons.mp hnd).2
    unfold loadLoop
    by_cases hek : e.keyword = k
    · cases hged : mapGet acc.expiries e.keyword with
      | none =>
        rw [hek, hget] at hged
        exact absurd hged (by simp)
      | some expiry =>
        have hexp : expiry = t := by
          rw [hek, hget] at hged
          injection hged with hged
          exact hged.symm
        subst hexp
        simp only [hle, if_true]
        have hkrest : k ∉ rest.map (fun e => e.keyword) := by
          have h5 := (List.nodup_cons.mp hnd).1
          simpa [hek] using h5
        have habs := loadLoop_absent now rest
          { acc with expiries := mapRemove acc.expiries e.keyword, removedExpired := true }
          k (by rw [mapGet_mapRemove]; simp [hek]) hkrest hent hidx
        exact ⟨habs.1, habs.2.1, habs.2.2, loadLoop_removed_mono now rest _ rfl⟩
    · have hmem2 : ∃ x ∈ rest, x.keyword = k := by
        obtain ⟨x, hx, hxk⟩ := hmem
        rcases List.mem_cons.mp hx with rfl | hx
        · exact absurd hxk hek
        · exact ⟨x, hx, hxk⟩
      cases hged : mapGet acc.expiries e.keyword with
      | none =>
        refine ih _ k t hndr hmem2 hget hle (not_mem_keywords_append hent
          (fun h => hek h)) ?_
        rw [mapGet_mapInsert, if_neg (fun h => hek h.symm)]
        exact hidx
      | some expiry =>
        by_cases hle2 : expiry ≤ now
        · simp only [hle2, if_true]
          refine ih _ k t hndr hmem2 ?_ hle hent hidx
          rw [mapGet_mapRemove, if_neg (fun h => hek h.symm)]
          exact hget
        · simp only [hle2, if_false]
          refine ih _ k t hndr hmem2 hget hle (not_mem_keywords_append hent
            (fun h => hek h)) ?_
          rw [mapGet_mapInsert, if_neg (fun h => hek h.symm)]
          exact hidx

/-- Every entry kept by the loop came from the accumulator or the raw
list. -/
theorem loadLoop_entries_sub (now : Nat) :
    ∀ (raw : List ShortcutEntry) (acc : LoadAcc) (e : ShortcutEntry),
      e ∈ (loadLoop now raw acc).entries → e ∈ acc.entries ∨ e ∈ raw := by
  intro raw
  induction raw with
  | nil => intro acc e h; exact Or.inl (by simpa [loadLoop] using h)
  | cons x rest ih =>
    intro acc e h
    unfold loadLoop at h
    cases hged : mapGet acc.expiries x.keyword with
    | none =>
      rw [hged] at h
      rcases ih _ e h with h1 | h1
      · rcases List.mem_append.mp h1 with h2 | h2
        · exact Or.inl h2
        · simp only [List.mem_singleton] at h2
          exact Or.inr (h2 ▸ List.mem_cons_self _ _)
      · exact Or.inr (List.mem_cons_of_mem _ h1)
    | some expiry =>
      rw [hged] at h
      by_cases hle : expiry ≤ now
      · simp only [hle, if_true] at h
        rcases ih _ e h with h1 | h1
        · exact Or.inl h1
        · exact Or.inr (List.mem_cons_of_mem _ h1)
      · simp only [hle, if_false] at h
        rcases ih _ e h with h1 | h1
        · rcases List.mem_append.mp h1 with h2 | h2
          · exact Or.inl h2
          · simp only [List.mem_singleton] at h2
            exact Or.inr (h2 ▸ List.mem_cons_self _ _)
        · exact Or.inr (List.mem_cons_of_mem _ h1)

/-- The loop maintains the entries/index invariant when the remaining raw
keywords are disjoint from the accumulated ones and mutually distinct. -/
theorem loadLoop_inv (now : Nat) :
    ∀ (raw : List ShortcutEntry) (acc : LoadAcc),
      (acc.entries.map (fun e => e.keyword) ++ raw.map (fun e => e.keyword)).Nodup →
      InvL acc.entries acc.index →
      InvL (loadLoop now raw acc).entries (loadLoop now raw acc).index := by
  intro raw
  induction raw with
  | nil => intro acc _ hinv; simpa [loadLoop] using hinv
  | cons e rest ih =>
    intro acc hnd hinv
    have hnd' : (acc.entries.map (fun x => x.keyword) ++
        rest.map (fun x => x.keyword)).Nodup := by
      refine List.Nodup.sublist ?_ hnd
      apply List.Sublist.append_left
      simp only [List.map_cons]
      exact List.sublist_cons_self _ _
    have hfresh : e.keyword ∉ acc.entries.map (fun x => x.keyword) := by
      intro hcontra
      rw [List.nodup_append] at hnd
      exact hnd.2.2 hcontra (by simp)
    unfold loadLoop
    cases hged : mapGet acc.expiries e.keyword with
    | none =>
      apply ih
      · simp only [List.map_append, List.map_cons, List.map_nil]
        have heq : (acc.entries.map (fun x => x.keyword) ++ [e.keyword]) ++
            rest.map (fun x => x.keyword) =
            acc.entries.map (fun x => x.keyword) ++
              (e.keyword :: rest.map (fun x => x.keyword)) := by
          rw [List.append_assoc]
          rfl
        simpa [heq] using hnd
      · exact InvL_append hinv hfresh
    | some expiry =>
      by_cases hle : expiry ≤ now
      · simp only [hle, if_true]
        exact ih _ hnd' hinv
      · simp only [hle, if_false]
        apply ih
        · simp only [List.map_append, List.map_cons, List.map_nil]
          have heq : (acc.entries.map (fun x => x.keyword) ++ [e.keyword]) ++
              rest.map (fun x => x.keyword) =
              acc.entries.map (fun x => x.keyword) ++
                (e.keyword :: rest.map (fun x => x.keyword)) := by
            rw [List.append_assoc]
            rfl
          simpa [heq] using hnd
        · exact InvL_append hinv hfresh

theorem load_inv (files : Files) (now : Nat)
    (hnd : ((LoadConfigEntries files.configFile).map (fun e => e.keyword)).Nodup) :
    Inv (Load files now) := by
  unfold Inv Load
  simp only
  apply loadLoop_inv
  · simpa using hnd
  · refine ⟨by simp, ?_, ?_⟩
    · intro k i h
      simp [mapGet] at h
    · intro e he
      simp at he

/-! ### Invariant preservation by the mutating operations -/

theorem AddShortcut_error_store {fs : FS} {confirm : Bool} {s : Store} {kw tp : String}
    {expire : Option Nat} {behavior : AddBehavior} {er : Err} {s1 : Store}
    (h : AddShortcut fs confirm s kw tp expire behavior = Except.error (er, s1)) :
    s1 = s := by
  unfold AddShortcut at h
  split at h
  · simp only [Except.error.injEq, Prod.mk.injEq] at h
    exact h.2.symm
  · split at h
    · simp only [Except.error.injEq, Prod.mk.injEq] at h
      exact h.2.symm
    · split at h
      · simp only [Except.error.injEq, Prod.mk.injEq] at h
        exact h.2.symm
      · split at h
        · split at h
          · simp only [Except.error.injEq, Prod.mk.injEq] at h
            exact h.2.symm
          · split at h
            · simp at h
            · split at h
              · simp only [Except.error.injEq, Prod.mk.injEq] at h
                exact h.2.symm
              · simp at h
        · dsimp only [] at h
          split at h
          · simp only [Except.error.injEq, Prod.mk.injEq] at h
            exact h.2.symm
          · simp at h

theorem AddShortcut_ok_inv {fs : FS} {confirm : Bool} {s : Store} {kw tp : String}
    {expire : Option Nat} {behavior : AddBehavior} {s1 : Store} {o : AddOutcome}
    (hinv : Inv s)
    (h : AddShortcut fs confirm s kw tp expire behavior = Except.ok (s1, o)) :
    Inv s1 := by
  unfold AddShortcut at h
  split at h
  · simp at h
  · split at h
    · simp at h
    · split at h
      · simp at h
      · rename_i absPath hcanon
        split at h
        · rename_i position hpos
          split at h
          · simp at h
          · rename_i existing hget
            split at h
            · simp only [Except.ok.injEq, Prod.mk.injEq] at h
              obtain ⟨h1, _⟩ := h
              subst h1
              split
              · exact hinv
              · exact hinv
            · split at h
              · simp at h
              · simp only [Except.ok.injEq, Prod.mk.injEq] at h
                obtain ⟨h1, _⟩ := h
                subst h1
                exact InvL_set_path hinv hget
        · rename_i hidxnone
          dsimp only [] at h
          split at h
          · simp at h
          · simp only [Except.ok.injEq, Prod.mk.injEq] at h
            obtain ⟨h1, _⟩ := h
            subst h1
            exact InvL_append hinv (InvL_fresh hinv hidxnone)

theorem AddShortcut_result_inv {fs : FS} {confirm : Bool} {s : Store} {kw tp : String}
    {expire : Option Nat} {behavior : AddBehavior} (hinv : Inv s) :
    Inv (match AddShortcut fs confirm s kw tp expire behavior with
          | Except.ok (s1, _) => s1
          | Except.error (_, s1) => s1) := by
  cases hres : AddShortcut fs confirm s kw tp expire behavior with
  | ok p =>
    obtain ⟨s1, o⟩ := p
    exact AddShortcut_ok_inv hinv hres
  | error p =>
    obtain ⟨er, s1⟩ := p
    rw [AddShortcut_error_store hres]
    exact hinv

theorem RemoveShortcut_cases {s : Store} {kw : String} :
    (RemoveShortcut s kw = Except.error (Err.NotFound, s)) ∨
      (∃ s1, RemoveShortcut s kw = Except.ok s1 ∧
        (Inv s → Inv s1)) := by
  unfold RemoveShortcut
  cases hged : mapGet s.index kw with
  | none => exact Or.inl rfl
  | some position =>
    refine Or.inr ⟨_, rfl, fun hinv => ?_⟩
    have hnd : ((s.entries.eraseIdx position).map (fun e => e.keyword)).Nodup :=
      List.Nodup.sublist ((List.eraseIdx_sublist _ _).map _) hinv.1
    exact InvL_rebuild _ hnd

theorem bulkGo_inv {fs : FS} {confirm : Bool} {behavior : AddBehavior} :
    ∀ (paths : List String) (s : Store) (added : List String),
      Inv s →
      (∀ s1 adds, bulkGo fs confirm behavior paths s added = Except.ok (s1, adds) →
        Inv s1) ∧
      (∀ er s1, bulkGo fs confirm behavior paths s added = Except.error (er, s1) →
        Inv s1) := by
  intro paths
  induction paths with
  | nil =>
    intro s added hinv
    constructor
    · intro s1 adds h
      simp only [bulkGo, Except.ok.injEq, Prod.mk.injEq] at h
      exact h.1 ▸ hinv
    · intro er s1 h
      simp [bulkGo] at h
  | cons p rest ih =>
    intro s added hinv
    constructor
    · intro s1 adds h
      unfold bulkGo at h
      split at h
      · exact (ih s added hinv).1 s1 adds h
      · split at h
        · simp at h
        · rename_i kw hkw
          split at h
          · exact (ih s added hinv).1 s1 adds h
          · split at h
            · simp at h
            · rename_i s2 o hadd
              exact (ih s2 (added ++ [kw]) (AddShortcut_ok_inv hinv hadd)).1 s1 adds h
    · intro er s1 h
      unfold bulkGo at h
      split at h
      · exact (ih s added hinv).2 er s1 h
      · split at h
        · simp only [Except.error.injEq, Prod.mk.injEq] at h
          exact h.2 ▸ hinv
        · rename_i kw hkw
          split at h
          · exact (ih s added hinv).2 er s1 h
          · split at h
            · rename_i e hadd
              obtain ⟨er2, s2⟩ := e
              simp only [Except.error.injEq] at h
              cases h
              rw [AddShortcut_error_store hadd]
              exact hinv
            · rename_i s2 o hadd
              exact (ih s2 (added ++ [kw]) (AddShortcut_ok_inv hinv hadd)).2 er s1 h

theorem CopyShortcut_error_store {fs : FS} {confirm : Bool} {s : Store}
    {ex nv : String} {behavior : AddBehavior} {er : Err} {s1 : Store}
    (h : CopyShortcut fs confirm s ex nv behavior = Except.error (er, s1)) :
    s1 = s := by
  unfold CopyShortcut at h
  split at h
  · simp only [Except.error.injEq, Prod.mk.injEq] at h
    exact h.2.symm
  · rename_i existingEntry hfe
    dsimp only [] at h
    split at h
    · split at h
      · simp only [Except.error.injEq, Prod.mk.injEq] at h
        exact h.2.symm
      · rename_i destKeyword hfn
        cases hres : AddShortcut fs confirm s destKeyword nv none behavior with
        | ok pr =>
          rw [hres] at h
          simp [Except.map] at h
        | error pr =>
          obtain ⟨er2, s2⟩ := pr
          rw [hres] at h
          simp only [Except.map, Except.error.injEq, Prod.mk.injEq] at h
          rw [← h.2]
          exact AddShortcut_error_store hres
    · cases hres : AddShortcut fs confirm s nv existingEntry.path none behavior with
      | ok pr =>
        rw [hres] at h
        simp [Except.map] at h
      | error pr =>
        obtain ⟨er2, s2⟩ := pr
        rw [hres] at h
        simp only [Except.map, Except.error.injEq, Prod.mk.injEq] at h
        rw [← h.2]
        exact AddShortcut_error_store hres

theorem CopyShortcut_ok_inv {fs : FS} {confirm : Bool} {s : Store}
    {ex nv : String} {behavior : AddBehavior} {s1 : Store} (hinv : Inv s)
    (h : CopyShortcut fs confirm s ex nv behavior = Except.ok s1) :
    Inv s1 := by
  unfold CopyShortcut at h
  split at h
  · simp at h
  · rename_i existingEntry hfe
    dsimp only [] at h
    split at h
    · split at h
      · simp at h
      · rename_i destKeyword hfn
        cases hres : AddShortcut fs confirm s destKeyword nv none behavior with
        | ok pr =>
          obtain ⟨s2, o⟩ := pr
          rw [hres] at h
          simp only [Except.map, Except.ok.injEq] at h
          exact h ▸ AddShortcut_ok_inv hinv hres
        | error pr =>
          rw [hres] at h
          simp [Except.map] at h
    · cases hres : AddShortcut fs confirm s nv existingEntry.path none behavior with
      | ok pr =>
        obtain ⟨s2, o⟩ := pr
        rw [hres] at h
        simp only [Except.map, Except.ok.injEq] at h
        exact h ▸ AddShortcut_ok_inv hinv hres
      | error pr =>
        rw [hres] at h
        simp [Except.map] at h

theorem runOp_inv (fs : FS) (s : Store) (op : Op) (hinv : Inv s) :
    Inv (runOp fs s op) := by
  cases op with
  | add confirm keyword targetPath expire behavior =>
    exact AddShortcut_result_inv hinv
  | bulk confirm pattern behavior =>
    show Inv (match AddBulk fs confirm s pattern behavior with
      | Except.ok (s1, _) => s1
      | Except.error (_, s1) => s1)
    unfold AddBulk
    cases hres : bulkGo fs confirm behavior (fs.globMatches pattern) s [] with
    | ok pr =>
      obtain ⟨s1, adds⟩ := pr
      exact (bulkGo_inv _ s [] hinv).1 s1 adds hres
    | error pr =>
      obtain ⟨er, s1⟩ := pr
      exact (bulkGo_inv _ s [] hinv).2 er s1 hres
  | copy confirm existing newValue behavior =>
    show Inv (match CopyShortcut fs confirm s existing newValue behavior with
      | Except.ok s1 => s1
      | Except.error (_, s1) => s1)
    cases hres : CopyShortcut fs confirm s existing newValue behavior with
    | ok s1 => exact CopyShortcut_ok_inv hinv hres
    | error pr =>
      obtain ⟨er, s1⟩ := pr
      rw [CopyShortcut_error_store hres]
      exact hinv
  | remove keyword =>
    show Inv (match RemoveShortcut s keyword with
      | Except.ok s1 => s1
      | Except.error (_, s1) => s1)
    rcases @RemoveShortcut_cases s keyword with h | ⟨s1, h, himp⟩
    · rw [h]; exact hinv
    · rw [h]; exact himp hinv
  | setSort mode =>
    show Inv (match SetSortMode s mode with
      | Except.ok s1 => s1
      | Except.error (_, s1) => s1)
    unfold SetSortMode
    cases ParseSortMode mode with
    | error e => exact hinv
    | ok parsed => exact hinv
  | recent keyword now =>
    exact hinv

theorem runOps_inv (fs : FS) (ops : List Op) :
    ∀ (s : Store), Inv s → Inv (runOps fs s ops) := by
  induction ops with
  | nil => intro s hinv; exact hinv
  | cons op rest ih =>
    intro s hinv
    exact ih (runOp fs s op) (runOp_inv fs s op hinv)

theorem mapGet_none_keys {α : Type} :
    ∀ (m : List (String × α)) (k : String), mapGet m k = none →
      ∀ p ∈ m, p.1 ≠ k := by
  intro m
  induction m with
  | nil => intro k _ p hp; simp at hp
  | cons q t ih =>
    intro k h p hp
    unfold mapGet at h
    obtain ⟨qk, qv⟩ := q
    by_cases hk : k = qk
    · rw [if_pos hk] at h; simp at h
    · rw [if_neg hk] at h
      rcases List.mem_cons.mp hp with rfl | hp
      · exact fun hc => hk hc.symm
      · exact ih k h p hp

theorem loadLoop_expiries_sub (now : Nat) :
    ∀ (raw : List ShortcutEntry) (acc : LoadAcc) (p : String × Nat),
      p ∈ (loadLoop now raw acc).expiries → p ∈ acc.expiries := by
  intro raw
  induction raw with
  | nil => intro acc p h; simpa [loadLoop] using h
  | cons e rest ih =>
    intro acc p h
    unfold loadLoop at h
    cases hged : mapGet acc.expiries e.keyword with
    | none =>
      rw [hged] at h
      dsimp only [] at h
      exact ih ⟨acc.entries ++ [e], acc.expiries,
        mapInsert acc.index e.keyword acc.entries.length, acc.removedExpired⟩ p h
    | some expiry =>
      rw [hged] at h
      by_cases hle : expiry ≤ now
      · simp only [hle, if_true] at h
        have h2 := ih ⟨acc.entries, mapRemove acc.expiries e.keyword,
          acc.index, true⟩ p h
        exact mapRemove_keys_sub _ _ _ h2
      · simp only [hle, if_false] at h
        exact ih ⟨acc.entries ++ [e], acc.expiries,
          mapInsert acc.index e.keyword acc.entries.length, acc.removedExpired⟩ p h

/-! ### Claim C4 -/

/-- A filesystem stub used by concrete witnesses. -/
def fsEmpty : FS :=
  { pathExists := fun _ => false, isDir := fun _ => false,
    canon := fun _ => none, globMatches := fun _ => [] }

/-- C4 (amended): starting from a Load of an entries file whose
well-formed lines carry pairwise distinct keywords, every store reachable
through any sequence of AddShortcut, AddBulk, CopyShortcut,
RemoveShortcut, SetSortMode and UpdateRecentUsage calls has pairwise
distinct keywords in Entries. -/
theorem claim_C4 (fs : FS) (files : Files) (now : Nat) (ops : List Op)
    (hnd : ((LoadConfigEntries files.configFile).map (fun e => e.keyword)).Nodup) :
    (keywordsOf (runOps fs (Load files now) ops)).Nodup :=
  (runOps_inv fs ops (Load files now) (load_inv files now hnd)).1

theorem claim_C4_witness :
    (keywordsOf (runOps fsEmpty
      (Load { configFile := ["a=/x", "b=/y"], metaFile := [], recentFile := [],
              userConfigFile := [] } 5)
      [Op.remove "a", Op.setSort "added"])).Nodup :=
  claim_C4 fsEmpty
    { configFile := ["a=/x", "b=/y"], metaFile := [], recentFile := [],
      userConfigFile := [] } 5 [Op.remove "a", Op.setSort "added"] (by decide)

/-- C4 counterexample: Load does not deduplicate keywords, so an entries
file naming the same keyword twice yields a store (reachable with the
empty mutation sequence) whose Entries carry a duplicated keyword. -/
theorem claim_C4_counterexample :
    ¬ (keywordsOf (runOps fsEmpty
      (Load { configFile := ["a=/x", "a=/y"], metaFile := [], recentFile := [],
              userConfigFile := [] } 0) [])).Nodup := by
  decide

/-! ### Claims C3 and C5 -/

theorem load_after (files : Files) (now : Nat) (out : LoadAcc)
    (hout : loadLoop now (LoadConfigEntries files.configFile)
      ⟨[], LoadNumberMap files.metaFile, [], false⟩ = out) :
    (Load files now).entries = out.entries ∧
    (Load files now).expiries = out.expiries ∧
    (Load files now).index = out.index ∧
    (Load files now).files =
      (if out.removedExpired then
        { files with
          configFile := RenderConfig out.entries,
          metaFile := RenderNumberMap out.expiries }
      else files) := by
  subst hout
  exact ⟨rfl, rfl, rfl, rfl⟩

theorem load_entries_no_eq (files : Files) (now : Nat) :
    ∀ x ∈ (Load files now).entries, NoEqChar x.keyword := by
  intro x hx
  have hsub := loadLoop_entries_sub now (LoadConfigEntries files.configFile)
    ⟨[], LoadNumberMap files.metaFile, [], false⟩ x hx
  rcases hsub with h | h
  · simp at h
  · exact LoadConfigEntries_keys_no_eq files.configFile x h

/-- C3 (amended): on an entries file whose well-formed lines carry
pairwise distinct keywords, a loaded entry whose keyword holds an expiry
instant ≤ now is dropped from Entries and Index, its ExpiryMap record is
removed, the entries and expiry files are rewritten to the pruned state,
the pruned keyword is absent from both rewritten files, and no later Load
of the rewritten files re-discovers it. -/
theorem claim_C3 (files : Files) (now : Nat) (e : ShortcutEntry) (t : Nat)
    (hnd : ((LoadConfigEntries files.configFile).map (fun x => x.keyword)).Nodup)
    (hmem : e ∈ LoadConfigEntries files.configFile)
    (hexp : mapGet (LoadNumberMap files.metaFile) e.keyword = some t)
    (hle : t ≤ now) :
    e.keyword ∉ keywordsOf (Load files now) ∧
    mapGet (Load files now).index e.keyword = none ∧
    mapGet (Load files now).expiries e.keyword = none ∧
    (Load files now).files.configFile = RenderConfig (Load files now).entries ∧
    (Load files now).files.metaFile = RenderNumberMap (Load files now).expiries ∧
    e.keyword ∉ (LoadConfigEntries (Load files now).files.configFile).map
      (fun x => x.keyword) ∧
    mapGet (LoadNumberMap (Load files now).files.metaFile) e.keyword = none ∧
    (∀ now2, e.keyword ∉ keywordsOf (Load (Load files now).files now2)) := by
  obtain ⟨hent, hexpq, hidxq, hfl⟩ := load_after files now _ rfl
  have hdrop := loadLoop_drop now (LoadConfigEntries files.configFile)
    ⟨[], LoadNumberMap files.metaFile, [], false⟩ e.keyword t hnd
    ⟨e, hmem, rfl⟩ hexp hle (by simp) (by simp [mapGet])
  obtain ⟨hd1, hd2, hd3, hd4⟩ := hdrop
  have hfiles : (Load files now).files =
      { files with
        configFile := RenderConfig (loadLoop now (LoadConfigEntries files.configFile)
          ⟨[], LoadNumberMap files.metaFile, [], false⟩).entries,
        metaFile := RenderNumberMap (loadLoop now (LoadConfigEntries files.configFile)
          ⟨[], LoadNumberMap files.metaFile, [], false⟩).expiries } := by
    rw [hfl, if_pos]
    exact hd4
  have hokexp : ∀ p ∈ (loadLoop now (LoadConfigEntries files.configFile)
      ⟨[], LoadNumberMap files.metaFile, [], false⟩).expiries, NoEqChar p.1 := by
    intro p hp
    have := loadLoop_expiries_sub now _ _ p hp
    exact LoadNumberMap_keys_no_eq files.metaFile p this
  have hokent : ∀ x ∈ (loadLoop now (LoadConfigEntries files.configFile)
      ⟨[], LoadNumberMap files.metaFile, [], false⟩).entries, NoEqChar x.keyword := by
    intro x hx
    rcases loadLoop_entries_sub now _ _ x hx with h | h
    · simp at h
    · exact LoadConfigEntries_keys_no_eq files.configFile x h
  have hcfg : e.keyword ∉ (LoadConfigEntries (Load files now).files.configFile).map
      (fun x => x.keyword) := by
    rw [hfiles]
    intro hcontra
    obtain ⟨e2, he2, he2k⟩ := List.mem_map.mp hcontra
    have := LoadConfigEntries_render_keys _ hokent e2 he2
    rw [he2k] at this
    exact hd2 this
  refine ⟨?_, ?_, ?_, ?_, ?_, hcfg, ?_, ?_⟩
  · unfold keywordsOf
    rw [hent]
    exact hd2
  · rw [hidxq]; exact hd3
  · rw [hexpq]; exact hd1
  · rw [hfiles, hent]
  · rw [hfiles, hexpq]
  · rw [hfiles]
    exact LoadNumberMap_render_none _ _ (mapGet_none_keys _ _ hd1) hokexp
  · intro now2 hcontra
    unfold keywordsOf at hcontra
    obtain ⟨e2, he2, he2k⟩ := List.mem_map.mp hcontra
    have hsub := loadLoop_entries_sub now2
      (LoadConfigEntries (Load files now).files.configFile)
      ⟨[], LoadNumberMap (Load files now).files.metaFile, [], false⟩ e2 he2
    rcases hsub with h | h
    · simp at h
    · exact hcfg (he2k ▸ List.mem_map.mpr ⟨e2, h, rfl⟩)

/-- C5 (amended): the expiry record of a keyword whose entry is pruned by
Load, or removed by RemoveShortcut, is absent from the rewritten expiry
file; orphaned records of keywords with no entry at all are not pruned. -/
theorem claim_C5 (files : Files) (now : Nat) (k : String) (t : Nat)
    (s : Store) (position : Nat) :
    ((∃ e ∈ LoadConfigEntries files.configFile, e.keyword = k) →
      mapGet (LoadNumberMap files.metaFile) k = some t → t ≤ now →
      mapGet (Load files now).expiries k = none ∧
        (Load files now).files.metaFile = RenderNumberMap (Load files now).expiries ∧
        mapGet (LoadNumberMap (Load files now).files.metaFile) k = none) ∧
    (mapGet s.index k = some position →
      ∃ s1, RemoveShortcut s k = Except.ok s1 ∧
        mapGet s1.expiries k = none ∧
        s1.files.metaFile = RenderNumberMap s1.expiries ∧
        ((∀ p ∈ s.expiries, NoEqChar p.1) →
          mapGet (LoadNumberMap s1.files.metaFile) k = none)) := by
  constructor
  · intro hmem hexp hle
    obtain ⟨hent, hexpq, hidxq, hfl⟩ := load_after files now _ rfl
    have hdrop := loadLoop_drop_record now (LoadConfigEntries files.configFile)
      ⟨[], LoadNumberMap files.metaFile, [], false⟩ k t hmem hexp hle
    obtain ⟨hd1, hd4⟩ := hdrop
    have hfiles : (Load files now).files =
        { files with
          configFile := RenderConfig (loadLoop now (LoadConfigEntries files.configFile)
            ⟨[], LoadNumberMap files.metaFile, [], false⟩).entries,
          metaFile := RenderNumberMap (loadLoop now (LoadConfigEntries files.configFile)
            ⟨[], LoadNumberMap files.metaFile, [], false⟩).expiries } := by
      rw [hfl, if_pos]
      exact hd4
    have hokexp : ∀ p ∈ (loadLoop now (LoadConfigEntries files.configFile)
        ⟨[], LoadNumberMap files.metaFile, [], false⟩).expiries, NoEqChar p.1 := by
      intro p hp
      have := loadLoop_expiries_sub now _ _ p hp
      exact LoadNumberMap_keys_no_eq files.metaFile p this
    refine ⟨?_, ?_, ?_⟩
    · rw [hexpq]; exact hd1
    · rw [hfiles, hexpq]
    · rw [hfiles]
      exact LoadNumberMap_render_none _ _ (mapGet_none_keys _ _ hd1) hokexp
  · intro hpos
    refine ⟨?_, ?_, ?_, ?_, ?_⟩
    · exact { s with
        entries := s.entries.eraseIdx position,
        expiries := mapRemove s.expiries k,
        recents := mapRemove s.recents k,
        index := rebuildIndex (s.entries.eraseIdx position),
        files :=
          { s.files with
            configFile := RenderConfig (s.entries.eraseIdx position),
            metaFile := RenderNumberMap (mapRemove s.expiries k),
            recentFile := RenderNumberMap (mapRemove s.recents k) } }
    · unfold RemoveShortcut
      rw [hpos]
    · rw [mapGet_mapRemove]
      simp
    · rfl
    · intro hok
      apply LoadNumberMap_render_none
      · exact mapGet_none_keys _ _ (by rw [mapGet_mapRemove]; simp)
      · intro p hp
        exact hok p (mapRemove_keys_sub _ _ _ hp)

theorem claim_C3_witness :
    "a" ∉ keywordsOf (Load ⟨["a=/x"], ["a=1"], [], []⟩ 10) ∧
    mapGet (Load ⟨["a=/x"], ["a=1"], [], []⟩ 10).expiries "a" = none ∧
    mapGet (LoadNumberMap (Load ⟨["a=/x"], ["a=1"], [], []⟩ 10).files.metaFile)
      "a" = none ∧
    "a" ∉ keywordsOf (Load (Load ⟨["a=/x"], ["a=1"], [], []⟩ 10).files 0) := by
  have h := claim_C3 ⟨["a=/x"], ["a=1"], [], []⟩ 10 ⟨"a", "/x"⟩ 1
    (by decide) (by decide) (by decide) (by decide)
  exact ⟨h.1, h.2.2.1, h.2.2.2.2.2.2.1, h.2.2.2.2.2.2.2 0⟩

/-- C3 counterexample: with a duplicated keyword in the entries file, the
first occurrence's pruning removes the expiry record, so the second
occurrence survives Load even though its keyword held a due instant. -/
theorem claim_C3_counterexample :
    (⟨"a", "/y"⟩ : ShortcutEntry) ∈ LoadConfigEntries ["a=/x", "a=/y"] ∧
    mapGet (LoadNumberMap ["a=1"]) "a" = some 1 ∧ (1 : Nat) ≤ 10 ∧
    "a" ∈ keywordsOf (Load ⟨["a=/x", "a=/y"], ["a=1"], [], []⟩ 10) := by
  decide

/-- Concrete store used by the C5 witness. -/
def exRemStore : Store :=
  ⟨[⟨"b", "/q"⟩], [("b", 7)], [], SortMode.Added, [("b", 0)],
    ⟨["b=/q"], ["b=7"], [], []⟩⟩

def exRemStoreAfter : Store :=
  ⟨[], [], [], SortMode.Added, [], ⟨[], [], [], []⟩⟩

theorem claim_C5_witness :
    mapGet (LoadNumberMap (Load ⟨["a=/x"], ["a=1"], [], []⟩ 10).files.metaFile)
      "a" = none ∧
    RemoveShortcut exRemStore "b" = Except.ok exRemStoreAfter ∧
    mapGet exRemStoreAfter.expiries "b" = none ∧
    mapGet (LoadNumberMap exRemStoreAfter.files.metaFile) "b" = none := by
  have h := claim_C5 ⟨["a=/x"], ["a=1"], [], []⟩ 10 "a" 1 exRemStore 0
  have ha := (h.1 ⟨⟨"a", "/x"⟩, by decide, by decide⟩ (by decide) (by decide)).2.2
  have hb := claim_C5 ⟨["a=/x"], ["a=1"], [], []⟩ 10 "b" 1 exRemStore 0
  obtain ⟨s1, hok, h1, h2, h3⟩ := hb.2 (by decide)
  have hconc : RemoveShortcut exRemStore "b" = Except.ok exRemStoreAfter := rfl
  rw [hconc] at hok
  injection hok with hok
  refine ⟨ha, hconc, hok ▸ h1, hok ▸ h3 ?_⟩
  intro p hp
  have hp2 : p = ("b", 7) := by simpa [exRemStore] using hp
  subst hp2
  intro a ha
  have ha2 : a = 'b' := by simpa using ha
  subst ha2
  decide

/-- C5 counterexample: an orphaned expiry record (keyword ghost has no
entry) survives the expiry-file rewrite triggered by pruning. -/
theorem claim_C5_counterexample :
    "ghost" ∉ keywordsOf (Load ⟨["a=/x"], ["ghost=5", "a=1"], [], []⟩ 10) ∧
    (Load ⟨["a=/x"], ["ghost=5", "a=1"], [], []⟩ 10).files.metaFile =
      ["ghost=5"] ∧
    mapGet (LoadNumberMap
      (Load ⟨["a=/x"], ["ghost=5", "a=1"], [], []⟩ 10).files.metaFile)
      "ghost" = some 5 := by
  decide

/-! ### Claims C1 and C7 -/

/-- C1: on a keyword conflict (same keyword registered at a different
canonical path), a non-forced AddShortcut fails with AlreadyExists and
leaves the whole store (including the persisted files) untouched; a
forced AddShortcut overwrites the path in place (keyword order
unchanged), applies the expiry argument, persists both files, and
returns Replaced with the previous and new paths. -/
theorem claim_C1 (fs : FS) (confirm : Bool) (s : Store)
    (keyword targetPath absPath : String) (expire : Option Nat)
    (behavior : AddBehavior) (position : Nat) (existing : ShortcutEntry)
    (hex : fs.pathExists targetPath = true) (hdir : fs.isDir targetPath = true)
    (hcanon : fs.canon targetPath = some absPath)
    (hidx : mapGet s.index keyword = some position)
    (hget : s.entries[position]? = some existing)
    (hne : existing.path ≠ absPath) :
    (behavior.force = false →
      AddShortcut fs confirm s keyword targetPath expire behavior =
        Except.error (Err.AlreadyExists, s)) ∧
    (behavior.force = true →
      AddShortcut fs confirm s keyword targetPath expire behavior =
        Except.ok
          ({ s with
              entries := s.entries.set position { existing with path := absPath },
              expiries := (applyExpiry s.expiries keyword expire).1,
              files :=
                { s.files with
                  configFile :=
                    RenderConfig (s.entries.set position { existing with path := absPath }),
                  metaFile := RenderNumberMap (applyExpiry s.expiries keyword expire).1 } },
            AddOutcome.Replaced existing.path absPath
              (applyExpiry s.expiries keyword expire).2.1)) ∧
    ((s.entries.set position { existing with path := absPath }).map
      (fun e => e.keyword) = keywordsOf s) ∧
    ((applyExpiry s.expiries keyword expire).1 =
      match expire with
      | some ts => mapInsert s.expiries keyword ts
      | none => mapRemove s.expiries keyword) := by
  refine ⟨?_, ?_, ?_, rfl⟩
  · intro hf
    simp [AddShortcut, hex, hdir, hcanon, hidx, hget, hne, hf]
  · intro hf
    simp [AddShortcut, hex, hdir, hcanon, hidx, hget, hne, hf]
  · unfold keywordsOf
    rw [List.map_set]
    apply set_self_of_getElem?
    rw [List.getElem?_map, hget]
    rfl

/-- A permissive filesystem stub: everything exists, everything is a
directory, canonicalization is the identity. -/
def fsIdent : FS :=
  { pathExists := fun _ => true, isDir := fun _ => true,
    canon := fun p => some p, globMatches := fun _ => [] }

def exStoreC1 : Store :=
  ⟨[⟨"proj", "/a"⟩], [], [], SortMode.Added, [("proj", 0)],
    ⟨["proj=/a"], [], [], []⟩⟩

def exStoreC1Replaced : Store :=
  ⟨[⟨"proj", "/b"⟩], [], [], SortMode.Added, [("proj", 0)],
    ⟨["proj=/b"], [], [], []⟩⟩

theorem claim_C1_witness :
    AddShortcut fsIdent false exStoreC1 "proj" "/b" none
      { force := false, assumeYes := false } =
      Except.error (Err.AlreadyExists, exStoreC1) ∧
    AddShortcut fsIdent false exStoreC1 "proj" "/b" none
      { force := true, assumeYes := false } =
      Except.ok (exStoreC1Replaced, AddOutcome.Replaced "/a" "/b" none) := by
  constructor
  · exact (claim_C1 fsIdent false exStoreC1 "proj" "/b" "/b" none
      { force := false, assumeYes := false } 0 ⟨"proj", "/a"⟩ rfl rfl rfl
      (by decide) (by decide) (by decide)).1 rfl
  · have h := (claim_C1 fsIdent false exStoreC1 "proj" "/b" "/b" none
      { force := true, assumeYes := false } 0 ⟨"proj", "/a"⟩ rfl rfl rfl
      (by decide) (by decide) (by decide)).2.1 rfl
    rw [h]
    rfl

/-- C7: a new keyword whose canonical path collides with an existing
entry, without force or assumeYes, aborts with AbortedByUser and no
mutation when the confirmation refuses; in a non-interactive context the
confirmation always resolves to refusal. -/
theorem claim_C7 (fs : FS) (s : Store) (keyword targetPath absPath input : String)
    (expire : Option Nat) (isTerminal : Bool)
    (hex : fs.pathExists targetPath = true) (hdir : fs.isDir targetPath = true)
    (hcanon : fs.canon targetPath = some absPath)
    (hidx : mapGet s.index keyword = none)
    (hdup : (s.entries.filter (fun e => e.path = absPath && e.keyword ≠ keyword)).map
      (fun e => e.keyword) ≠ [])
    (hconf : ConfirmDuplicatePath isTerminal input = false) :
    (∀ inp, ConfirmDuplicatePath false inp = false) ∧
    AddShortcut fs (ConfirmDuplicatePath isTerminal input) s keyword targetPath
      expire { force := false, assumeYes := false } =
      Except.error (Err.AbortedByUser, s) := by
  constructor
  · intro inp
    simp [ConfirmDuplicatePath]
  · have hfne : s.entries.filter (fun e => e.path = absPath && e.keyword ≠ keyword) ≠ [] := by
      intro hnil
      exact hdup (by rw [hnil]; rfl)
    obtain ⟨x, hx⟩ := List.exists_mem_of_ne_nil _ hfne
    have hmf := List.mem_filter.mp hx
    have hb := hmf.2
    simp only [Bool.and_eq_true, decide_eq_true_eq] at hb
    have hex2 : ∃ x ∈ s.entries, x.path = absPath ∧ ¬x.keyword = keyword :=
      ⟨x, hmf.1, hb.1, hb.2⟩
    simp [AddShortcut, hex, hdir, hcanon, hidx, hconf]
    exact hex2

def exDupStore : Store :=
  ⟨[⟨"other", "/p"⟩], [], [], SortMode.Added, [("other", 0)],
    ⟨["other=/p"], [], [], []⟩⟩

/-- A filesystem in which every path canonicalizes to the already
registered directory. -/
def fsDup : FS :=
  { pathExists := fun _ => true, isDir := fun _ => true,
    canon := fun _ => some "/p", globMatches := fun _ => ["/q/name"] }

theorem claim_C7_witness :
    ConfirmDuplicatePath false "y" = false ∧
    AddShortcut fsDup (ConfirmDuplicatePath false "y") exDupStore "name" "/q/name"
      none { force := false, assumeYes := false } =
      Except.error (Err.AbortedByUser, exDupStore) := by
  have h := claim_C7 fsDup exDupStore "name" "/q/name" "/p" "y" none false
    rfl rfl rfl (by decide) (by decide) rfl
  exact ⟨h.1 "y", h.2⟩

/-! ### Claim C2 -/

theorem resolveGo_cons (s : Store) (input p : String) (rest : List String) :
    resolveGo s input (p :: rest) =
      match lookupEntry s p with
      | none => resolveGo s input rest
      | some entry =>
        Except.ok
          { keyword := entry.keyword, basePath := entry.path,
            targetPath :=
              if (dropSlashes (dropPre input p)).isEmpty = true then entry.path
              else entry.path ++ "/" ++ dropSlashes (dropPre input p) } := rfl

theorem resolveGo_skip_empty (s : Store) (input : String)
    (h : lookupEntry s "" = none) :
    ∀ l : List String, resolveGo s input l =
      resolveGo s input (l.filter (fun p => p.isEmpty = false)) := by
  intro l
  induction l with
  | nil => rfl
  | cons p rest ih =>
    by_cases hp : p.isEmpty = true
    · have hpe : p = "" := (String.isEmpty_iff p).mp hp
      have hlk : lookupEntry s p = none := by rw [hpe]; exact h
      rw [List.filter_cons_of_neg (by simp [hp])]
      rw [resolveGo_cons]
      simp only [hlk]
      exact ih
    · have hpb : p.isEmpty = false := Bool.eq_false_iff.mpr hp
      rw [List.filter_cons_of_pos (by simp [hpb])]
      rw [resolveGo_cons, resolveGo_cons]
      cases hlk : lookupEntry s p with
      | none => simp only [hlk]; exact ih
      | some entry => simp only [hlk]

def exJumpStore : Store :=
  ⟨[⟨"base", "/home/base"⟩], [], [], SortMode.Added, [("base", 0)],
    ⟨["base=/home/base"], [], [], []⟩⟩

def exJumpStore2 : Store :=
  ⟨[⟨"base", "/home/base"⟩, ⟨"base/nested", "/elsewhere"⟩], [], [],
    SortMode.Added, [("base", 0), ("base/nested", 1)],
    ⟨["base=/home/base", "base/nested=/elsewhere"], [], [], []⟩⟩

/-- C2: for stores with no empty keyword, ResolveJump behaves exactly as
the specification says — every non-empty slash-delimited prefix of the
input, longest first, is tried as a keyword lookup, the longest
registered one wins, the slash-stripped remainder is appended to the
entry's path, and no match yields NotFound. The concrete conjuncts are
the specification's examples, including the longest-prefix tie-break. -/
theorem claim_C2 (s : Store) (input : String)
    (h : lookupEntry s "" = none) :
    ResolveJump s input = specResolveJump s input ∧
    ResolveJump exJumpStore "base/nested/deeper" =
      Except.ok ⟨"base", "/home/base", "/home/base/nested/deeper"⟩ ∧
    ResolveJump exJumpStore2 "base/nested/deeper" =
      Except.ok ⟨"base/nested", "/elsewhere", "/elsewhere/deeper"⟩ ∧
    ResolveJump exJumpStore "unknown/x" = Except.error Err.NotFound := by
  refine ⟨?_, rfl, rfl, rfl⟩
  unfold ResolveJump specResolveJump
  exact resolveGo_skip_empty s input h _

theorem claim_C2_witness :
    lookupEntry exJumpStore "" = none ∧
    ResolveJump exJumpStore "base/nested/deeper" =
      specResolveJump exJumpStore "base/nested/deeper" := by
  have h := claim_C2 exJumpStore "base/nested/deeper" (by decide)
  exact ⟨by decide, h.1⟩

/-! ### Claim C6 -/

/-- The claim's description of AddBulk: walk the glob matches in order;
for each directory whose basename is not yet a registered keyword, add it
and register the basename; already-registered basenames are skipped
silently. -/
def bulkExpected (fs : FS) : List String → (String → Bool) → List String
  | [], _ => []
  | p :: rest, isReg =>
    if fs.isDir p = false then bulkExpected fs rest isReg
    else
      match fileName p with
      | none => bulkExpected fs rest isReg
      | some kw =>
        if isReg kw then bulkExpected fs rest isReg
        else kw :: bulkExpected fs rest (fun x => x == kw || isReg x)

/-- A fresh keyword with assumeYes set always takes the case-4 append
path of AddShortcut. -/
theorem AddShortcut_fresh_yes (fs : FS) (confirm : Bool) (s : Store)
    (kw tp absPath : String) (expire : Option Nat) (behavior : AddBehavior)
    (hex : fs.pathExists tp = true) (hdir : fs.isDir tp = true)
    (hcanon : fs.canon tp = some absPath)
    (hidx : mapGet s.index kw = none) (hyes : behavior.assumeYes = true) :
    AddShortcut fs confirm s kw tp expire behavior =
      Except.ok
        ({ s with
            entries := s.entries ++ [⟨kw, absPath⟩],
            expiries := (applyExpiry s.expiries kw expire).1,
            index := mapInsert s.index kw s.entries.length,
            files :=
              { s.files with
                configFile := RenderConfig (s.entries ++ [⟨kw, absPath⟩]),
                metaFile := RenderNumberMap (applyExpiry s.expiries kw expire).1 } },
          AddOutcome.Added absPath (applyExpiry s.expiries kw expire).2.1
            ((s.entries.filter (fun e => e.path = absPath && e.keyword ≠ kw)).map
              (fun e => e.keyword))) := by
  simp [AddShortcut, hex, hdir, hcanon, hidx, hyes]

theorem bulkGo_spec (fs : FS) (confirm : Bool) (behavior : AddBehavior)
    (hyes : behavior.assumeYes = true) :
    ∀ (paths : List String) (s : Store) (added : List String),
      Inv s →
      (∀ p ∈ paths, fs.isDir p = true →
        fs.pathExists p = true ∧ (fs.canon p).isSome ∧ (fileName p).isSome) →
      ∃ s1 newEntries,
        bulkGo fs confirm behavior paths s added =
          Except.ok (s1,
            added ++ bulkExpected fs paths (fun k => (mapGet s.index k).isSome)) ∧
        s1.entries = s.entries ++ newEntries ∧
        newEntries.map (fun e => e.keyword) =
          bulkExpected fs paths (fun k => (mapGet s.index k).isSome) := by
  intro paths
  induction paths with
  | nil =>
    intro s added _ _
    exact ⟨s, [], by simp [bulkGo, bulkExpected], by simp, by simp [bulkExpected]⟩
  | cons p rest ih =>
    intro s added hinv hp
    have hprest : ∀ q ∈ rest, fs.isDir q = true →
        fs.pathExists q = true ∧ (fs.canon q).isSome ∧ (fileName q).isSome :=
      fun q hq => hp q (List.mem_cons_of_mem _ hq)
    by_cases hdir : fs.isDir p = false
    · obtain ⟨s1, newEntries, h1, h2, h3⟩ := ih s added hinv hprest
      exact ⟨s1, newEntries, by simp only [bulkGo, bulkExpected, hdir, if_pos rfl]; exact h1,
        h2, by simp only [bulkExpected, hdir, if_pos rfl]; exact h3⟩
    · have hdir2 : fs.isDir p = true := by
        cases hv : fs.isDir p
        · exact absurd hv hdir
        · rfl
      obtain ⟨hex, hcs, hfs⟩ := hp p (List.mem_cons_self _ _) hdir2
      obtain ⟨absPath, hcanon⟩ := Option.isSome_iff_exists.mp hcs
      obtain ⟨kw, hkw⟩ := Option.isSome_iff_exists.mp hfs
      by_cases hreg : (mapGet s.index kw).isSome = true
      · obtain ⟨s1, newEntries, h1, h2, h3⟩ := ih s added hinv hprest
        refine ⟨s1, newEntries, ?_, h2, ?_⟩
        · simp only [bulkGo, bulkExpected, hdir2, hkw, hreg]
          simpa using h1
        · simp only [bulkExpected, hdir2, hkw, hreg]
          simpa using h3
      · have hregn : mapGet s.index kw = none := by
          cases hv : mapGet s.index kw with
          | none => rfl
          | some i => rw [hv] at hreg; simp at hreg
        have hADD := AddShortcut_fresh_yes fs confirm s kw p absPath none behavior
          hex hdir2 hcanon hregn hyes
        set s2 : Store :=
          { s with
            entries := s.entries ++ [⟨kw, absPath⟩],
            expiries := (applyExpiry s.expiries kw none).1,
            index := mapInsert s.index kw s.entries.length,
            files :=
              { s.files with
                configFile := RenderConfig (s.entries ++ [⟨kw, absPath⟩]),
                metaFile := RenderNumberMap (applyExpiry s.expiries kw none).1 } }
          with hs2
        have hinv2 : Inv s2 := InvL_append hinv (InvL_fresh hinv hregn)
        obtain ⟨s1, newEntries, h1, h2, h3⟩ := ih s2 (added ++ [kw]) hinv2 hprest
        have hpred : (fun k => (mapGet s2.index k).isSome) =
            (fun x => x == kw || (mapGet s.index x).isSome) := by
          funext x
          show (mapGet (mapInsert s.index kw s.entries.length) x).isSome = _
          rw [mapGet_mapInsert]
          by_cases hx : x = kw
          · simp [hx]
          · simp [hx]
        rw [hpred] at h1 h3
        have hstep : bulkGo fs confirm behavior (p :: rest) s added =
            bulkGo fs confirm behavior rest s2 (added ++ [kw]) := by
          simp [bulkGo, hdir2, hkw, hregn, hADD]
        have hbe : bulkExpected fs (p :: rest) (fun k => (mapGet s.index k).isSome) =
            kw :: bulkExpected fs rest (fun x => x == kw || (mapGet s.index x).isSome) := by
          simp [bulkExpected, hdir2, hkw, hregn]
        refine ⟨s1, ⟨kw, absPath⟩ :: newEntries, ?_, ?_, ?_⟩
        · rw [hstep, h1, hbe]
          simp
        · rw [h2, hs2]
          simp
        · rw [hbe]
          simp only [List.map_cons, h3]

/-- C6 (amended): with behavior.assumeYes set (so the duplicate-path
confirmation cannot abort) and well-behaved glob matches, AddBulk adds,
for each matched directory whose basename is not already registered, a
new shortcut via the case-4 append path, skips already-registered
basenames silently, never replaces an existing entry (case 2), and
returns exactly the newly added keywords in match order. Without
assumeYes or force the case-3 duplicate-path confirmation can fire (see
the counterexample). -/
theorem claim_C6 (fs : FS) (confirm : Bool) (s : Store) (pattern : String)
    (behavior : AddBehavior) (hinv : Inv s) (hyes : behavior.assumeYes = true)
    (hp : ∀ p ∈ fs.globMatches pattern, fs.isDir p = true →
      fs.pathExists p = true ∧ (fs.canon p).isSome ∧ (fileName p).isSome) :
    ∃ s1 newEntries,
      AddBulk fs confirm s pattern behavior =
        Except.ok (s1, bulkExpected fs (fs.globMatches pattern)
          (fun k => (mapGet s.index k).isSome)) ∧
      s1.entries = s.entries ++ newEntries ∧
      newEntries.map (fun e => e.keyword) =
        bulkExpected fs (fs.globMatches pattern)
          (fun k => (mapGet s.index k).isSome) := by
  obtain ⟨s1, newEntries, h1, h2, h3⟩ :=
    bulkGo_spec fs confirm behavior hyes (fs.globMatches pattern) s [] hinv hp
  exact ⟨s1, newEntries, by simpa [AddBulk] using h1, h2, h3⟩

/-- C6 counterexample: a matched directory whose canonical path
duplicates an existing entry's path takes the case-3 confirmation branch
inside AddBulk; with a refusing (non-interactive) confirmation the whole
AddBulk aborts instead of skipping silently. -/
theorem claim_C6_counterexample :
    AddBulk fsDup false exDupStore "pat" { force := false, assumeYes := false } =
      Except.error (Err.AbortedByUser, exDupStore) := rfl

def exEmptyStore : Store :=
  ⟨[], [], [], SortMode.Added, [], ⟨[], [], [], []⟩⟩

def fsBulk : FS :=
  { pathExists := fun _ => true, isDir := fun _ => true,
    canon := fun p => some p,
    globMatches := fun _ => ["/d/one", "/d/two", "/d/one"] }

def exBulkResult : Store :=
  ⟨[⟨"one", "/d/one"⟩, ⟨"two", "/d/two"⟩], [], [], SortMode.Added,
    [("two", 1), ("one", 0)], ⟨["one=/d/one", "two=/d/two"], [], [], []⟩⟩

theorem claim_C6_witness :
    AddBulk fsBulk false exEmptyStore "p" { force := false, assumeYes := true } =
      Except.ok (exBulkResult, ["one", "two"]) ∧
    bulkExpected fsBulk (fsBulk.globMatches "p")
      (fun k => (mapGet exEmptyStore.index k).isSome) = ["one", "two"] ∧
    exBulkResult.entries =
      exEmptyStore.entries ++ [⟨"one", "/d/one"⟩, ⟨"two", "/d/two"⟩] := by
  have hinv : Inv exEmptyStore := by
    refine ⟨by simp [exEmptyStore, keywordsOf], ?_, ?_⟩
    · intro k i h
      simp [exEmptyStore, mapGet] at h
    · intro e he
      simp [exEmptyStore] at he
  obtain ⟨s1, newEntries, h1, h2, h3⟩ := claim_C6 fsBulk false exEmptyStore "p"
    { force := false, assumeYes := true } hinv rfl
    (by
      intro p hp hd
      refine ⟨rfl, by simp [fsBulk], ?_⟩
      simp only [fsBulk, List.mem_cons, List.not_mem_nil, or_false] at hp
      rcases hp with rfl | rfl | rfl <;> decide)
  have hexp : bulkExpected fsBulk (fsBulk.globMatches "p")
      (fun k => (mapGet exEmptyStore.index k).isSome) = ["one", "two"] := rfl
  have hcalc : AddBulk fsBulk false exEmptyStore "p"
      { force := false, assumeYes := true } =
      Except.ok (exBulkResult, ["one", "two"]) := rfl
  exact ⟨hcalc, hexp, by decide⟩

/-! ### Claim C8 -/

/-- The per-keyword body of the Search loop: look up the first entry with
the keyword, apply the scope test, then include the record when
requireBoth is set and both searched fields match, or otherwise when at
least one searched field matches. -/
def searchEval (s : Store) (fs : FS) (o : SearchOptions) (mk mp : Bool)
    (keyword : String) : Option SearchResult :=
  match s.entries.find? (fun e => e.keyword = keyword) with
  | none => none
  | some entry =>
    if searchScopeOk fs o entry = false then none
    else
      let keywordMatches := if mk then o.mode.matchesStr entry.keyword else false
      let pathMatches := if mp then o.mode.matchesStr entry.path else false
      let includeIt :=
        if o.requireBoth && mk && mp then keywordMatches && pathMatches
        else (mk && keywordMatches) || (mp && pathMatches)
      if includeIt then
        some { keyword := entry.keyword, path := entry.path,
               expiry := mapGet s.expiries entry.keyword }
      else none

theorem searchGo_cons_eval (s : Store) (fs : FS) (o : SearchOptions)
    (mk mp : Bool) (kw : String) (rest : List String) (acc : List SearchResult) :
    searchGo s fs o mk mp (kw :: rest) acc =
      match searchEval s fs o mk mp kw with
      | none => searchGo s fs o mk mp rest acc
      | some r =>
        match o.limit with
        | some limit =>
          if limit ≤ (acc ++ [r]).length then acc ++ [r]
          else searchGo s fs o mk mp rest (acc ++ [r])
        | none => searchGo s fs o mk mp rest (acc ++ [r]) := by
  conv_lhs => rw [searchGo]
  cases hfind : s.entries.find? (fun e => e.keyword = kw) with
  | none => simp [searchEval, hfind]
  | some entry =>
    simp only [searchEval, hfind]
    by_cases hscope : searchScopeOk fs o entry = false
    · simp [hscope]
    · simp only [if_neg hscope]
      split <;> rename_i hc <;>
        (split <;> rename_i hc2 <;> simp [hc2] <;>
          (try (split <;> rename_i hc3 <;> simp [hc3])))

theorem searchGo_limit_none (s : Store) (fs : FS) (o : SearchOptions)
    (mk mp : Bool) (hlim : o.limit = none) :
    ∀ (kws : List String) (acc : List SearchResult),
      searchGo s fs o mk mp kws acc =
        acc ++ kws.filterMap (searchEval s fs o mk mp) := by
  intro kws
  induction kws with
  | nil => intro acc; simp [searchGo]
  | cons kw rest ih =>
    intro acc
    rw [searchGo_cons_eval, List.filterMap_cons]
    cases heval : searchEval s fs o mk mp kw with
    | none => exact ih acc
    | some r =>
      simp only [hlim]
      rw [ih (acc ++ [r])]
      simp

theorem searchGo_limit_some (s : Store) (fs : FS) (o : SearchOptions)
    (mk mp : Bool) (n : Nat) (hlim : o.limit = some n) :
    ∀ (kws : List String) (acc : List SearchResult), acc.length < n →
      searchGo s fs o mk mp kws acc =
        acc ++ (kws.filterMap (searchEval s fs o mk mp)).take (n - acc.length) := by
  intro kws
  induction kws with
  | nil => intro acc _; simp [searchGo]
  | cons kw rest ih =>
    intro acc hacc
    rw [searchGo_cons_eval, List.filterMap_cons]
    cases heval : searchEval s fs o mk mp kw with
    | none => exact ih acc hacc
    | some r =>
      simp only [hlim]
      by_cases hstop : n ≤ (acc ++ [r]).length
      · rw [if_pos hstop]
        have hn : n - acc.length = 1 := by
          simp only [List.length_append, List.length_singleton] at hstop
          omega
        rw [hn]
        simp
      · rw [if_neg hstop]
        have hlt : (acc ++ [r]).length < n := by
          simp only [List.length_append, List.length_singleton] at hstop ⊢
          omega
        rw [ih (acc ++ [r]) hlt]
        have hn : n - acc.length = (n - (acc ++ [r]).length) + 1 := by
          simp only [List.length_append, List.length_singleton] at hstop ⊢
          omega
        rw [hn]
        simp [List.take_succ_cons]

theorem searchGo_limit_zero (s : Store) (fs : FS) (o : SearchOptions)
    (mk mp : Bool) (hlim : o.limit = some 0) :
    ∀ (kws : List String),
      searchGo s fs o mk mp kws [] =
        (kws.filterMap (searchEval s fs o mk mp)).take 1 := by
  intro kws
  induction kws with
  | nil => simp [searchGo]
  | cons kw rest ih =>
    rw [searchGo_cons_eval, List.filterMap_cons]
    cases heval : searchEval s fs o mk mp kw with
    | none => exact ih
    | some r => simp [hlim]

/-- C8 (amended): with neither field flag set, Search runs with both
effective flags true (the predicate is evaluated against keyword and
path); without a limit, Search returns exactly the records accepted by
the claim's inclusion rule, in SortedKeywords order; with a limit n it
returns the first max(n,1) of those — a limit of n ≥ 1 yields exactly
min(n, total) results, but a limit of 0 yields one result, not zero,
because the Rust loop checks the limit only after a push. -/
theorem claim_C8 (fs : FS) (s : Store) (o : SearchOptions) (n : Nat) :
    (Search fs s { o with matchKeyword := false, matchPath := false } =
      searchGo s fs { o with matchKeyword := false, matchPath := false }
        true true (SortedKeywords s) []) ∧
    (Search fs s { o with limit := none } =
      (SortedKeywords s).filterMap
        (searchEval s fs { o with limit := none }
          (effMatchKeyword { o with limit := none })
          (effMatchPath { o with limit := none }))) ∧
    (Search fs s { o with limit := some n } =
      (Search fs s { o with limit := none }).take (max n 1)) ∧
    ((Search fs s { o with limit := some n }).length =
      min (max n 1) (Search fs s { o with limit := none }).length) := by
  have h2 : Search fs s { o with limit := none } =
      (SortedKeywords s).filterMap
        (searchEval s fs { o with limit := none }
          (effMatchKeyword { o with limit := none })
          (effMatchPath { o with limit := none })) := by
    unfold Search
    rw [searchGo_limit_none s fs { o with limit := none } _ _ rfl]
    simp
  have h3 : Search fs s { o with limit := some n } =
      (Search fs s { o with limit := none }).take (max n 1) := by
    rw [h2]
    unfold Search
    cases n with
    | zero =>
      rw [searchGo_limit_zero s fs { o with limit := some 0 } _ _ rfl]
      rfl
    | succ m =>
      rw [searchGo_limit_some s fs { o with limit := some (m + 1) } _ _ (m + 1) rfl
        (SortedKeywords s) [] (by simp)]
      simp only [List.nil_append, List.length_nil, Nat.sub_zero]
      have hmax : max (m + 1) 1 = m + 1 := by omega
      rw [hmax]
      rfl
  refine ⟨rfl, h2, h3, ?_⟩
  rw [h3, List.length_take]

def exSearchStore : Store :=
  ⟨[⟨"proj", "/x"⟩, ⟨"production", "/y"⟩], [], [], SortMode.Added,
    [("proj", 0), ("production", 1)], ⟨[], [], [], []⟩⟩

def exSearchOpts : SearchOptions :=
  { query := "pro", matchKeyword := false, matchPath := false,
    requireBoth := false, mode := SearchMode.Substring "pro",
    limit := some 0, within := none, maxDepth := none }

/-- C8 counterexample: with limit = 0 and at least one match, Search
returns one result, not the claimed min(limit, total) = 0: the Rust loop
pushes first and only then compares the count against the limit. -/
theorem claim_C8_counterexample :
    (Search fsEmpty exSearchStore exSearchOpts).length = 1 ∧
    min 0 (Search fsEmpty exSearchStore { exSearchOpts with limit := none }).length
      = 0 := by
  constructor
  · rfl
  · rfl

/-! ### Claim C9 -/

theorem pairCmp_swap (a b : Nat × Nat) : (pairCmp a b).swap = pairCmp b a := by
  unfold pairCmp
  cases h1 : compare a.1 b.1 with
  | lt =>
    have h2 : compare b.1 a.1 = Ordering.gt := by
      rw [← Nat.compare_swap, h1]
      rfl
    simp [h2, Ordering.swap]
  | eq =>
    have h2 : compare b.1 a.1 = Ordering.eq := by
      rw [← Nat.compare_swap, h1]
      rfl
    simp [h2, ← Nat.compare_swap a.2 b.2]
  | gt =>
    have h2 : compare b.1 a.1 = Ordering.lt := by
      rw [← Nat.compare_swap, h1]
      rfl
    simp [h2, Ordering.swap]

theorem pairCmp_eq_iff (a b : Nat × Nat) : pairCmp a b = Ordering.eq ↔ a = b := by
  unfold pairCmp
  cases h1 : compare a.1 b.1 with
  | lt =>
    have hlt := Nat.compare_eq_lt.mp h1
    constructor
    · intro hc; exact absurd hc (by simp)
    · intro hab
      rw [hab] at hlt
      omega
  | eq =>
    have hfst := Nat.compare_eq_eq.mp h1
    constructor
    · intro hc
      have hsnd := Nat.compare_eq_eq.mp hc
      exact Prod.ext_iff.mpr ⟨hfst, hsnd⟩
    · intro hab
      subst hab
      exact Nat.compare_eq_eq.mpr rfl
  | gt =>
    have hgt := Nat.compare_eq_gt.mp h1
    constructor
    · intro hc; exact absurd hc (by simp)
    · intro hab
      rw [hab] at hgt
      omega

theorem pairCmp_lt_iff (a b : Nat × Nat) :
    pairCmp a b = Ordering.lt ↔ (a.1 < b.1 ∨ (a.1 = b.1 ∧ a.2 < b.2)) := by
  unfold pairCmp
  cases h1 : compare a.1 b.1 with
  | lt =>
    have hlt := Nat.compare_eq_lt.mp h1
    simp [hlt]
  | eq =>
    have hfst := Nat.compare_eq_eq.mp h1
    simp [hfst, Nat.compare_eq_lt]
  | gt =>
    have hgt := Nat.compare_eq_gt.mp h1
    constructor
    · intro hc; exact absurd hc (by simp)
    · rintro (h | ⟨h, _⟩) <;> omega

theorem pairCmp_lt_trans {a b c : Nat × Nat} (h1 : pairCmp a b = Ordering.lt)
    (h2 : pairCmp b c = Ordering.lt) : pairCmp a c = Ordering.lt := by
  rw [pairCmp_lt_iff] at h1 h2 ⊢
  rcases h1 with h1 | ⟨h1a, h1b⟩ <;> rcases h2 with h2 | ⟨h2a, h2b⟩ <;>
    first
    | exact Or.inl (by omega)
    | exact Or.inr (by omega)

theorem lexCmp_swap : ∀ a b : List (Nat × Nat), (lexCmp a b).swap = lexCmp b a := by
  intro a
  induction a with
  | nil => intro b; cases b <;> rfl
  | cons x xs ih =>
    intro b
    cases b with
    | nil => rfl
    | cons y ys =>
      unfold lexCmp
      cases h : pairCmp x y with
      | lt =>
        have h2 : pairCmp y x = Ordering.gt := by rw [← pairCmp_swap, h]; rfl
        simp [h2, Ordering.swap]
      | eq =>
        have h2 : pairCmp y x = Ordering.eq := by rw [← pairCmp_swap, h]; rfl
        simp [h2, ih ys]
      | gt =>
        have h2 : pairCmp y x = Ordering.lt := by rw [← pairCmp_swap, h]; rfl
        simp [h2, Ordering.swap]

theorem lexCmp_notgt_trans :
    ∀ (a b c : List (Nat × Nat)), lexCmp a b ≠ Ordering.gt →
      lexCmp b c ≠ Ordering.gt → lexCmp a c ≠ Ordering.gt := by
  intro a
  induction a with
  | nil =>
    intro b c _ _
    cases c <;> simp [lexCmp]
  | cons x xs ih =>
    intro b c h1 h2
    cases b with
    | nil => simp [lexCmp] at h1
    | cons y ys =>
      cases c with
      | nil => simp [lexCmp] at h2
      | cons z zs =>
        unfold lexCmp at h1 h2 ⊢
        cases hxy : pairCmp x y with
        | gt => rw [hxy] at h1; exact absurd rfl h1
        | lt =>
          cases hyz : pairCmp y z with
          | gt => rw [hyz] at h2; exact absurd rfl h2
          | lt =>
            have h3 : pairCmp x z = Ordering.lt := pairCmp_lt_trans hxy hyz
            simp [h3]
          | eq =>
            have h3 : y = z := (pairCmp_eq_iff _ _).mp hyz
            subst h3
            simp [hxy]
        | eq =>
          have h3 : x = y := (pairCmp_eq_iff _ _).mp hxy
          subst h3
          simp only [hxy] at h1
          cases hyz : pairCmp x z with
          | gt => rw [hyz] at h2; exact absurd rfl h2
          | lt => simp [hyz]
          | eq =>
            simp only [hyz] at h2 ⊢
            exact ih ys zs h1 h2

theorem ordNotGT_iff (x : Ordering) : ordNotGT x = true ↔ x ≠ Ordering.gt := by
  cases x <;> simp [ordNotGT]

theorem natLe_trans (a b c : String) (h1 : natLe a b = true) (h2 : natLe b c = true) :
    natLe a c = true := by
  rw [natLe, ordNotGT_iff] at h1 h2 ⊢
  exact lexCmp_notgt_trans _ _ _ h1 h2

theorem natLe_total (a b : String) : (natLe a b || natLe b a) = true := by
  rw [Bool.or_eq_true, natLe, natLe, ordNotGT_iff, ordNotGT_iff]
  by_cases h : lexCmp (natTokens a) (natTokens b) = Ordering.gt
  · right
    rw [natCompare, ← lexCmp_swap, h]
    decide
  · exact Or.inl h

/-- C9: SortedKeywords returns, for Added, the stored order unchanged;
for Alpha, a permutation of the keywords sorted by the natural
(numeric-aware) comparator, under which item2 sorts before item10; for
Recent, a permutation sorted by non-increasing recency timestamp with
missing timestamps counting as 0, so the most recent keyword is first and
unvisited keywords are last. -/
theorem claim_C9 (s : Store) :
    (SortedKeywords { s with sortMode := SortMode.Added } = keywordsOf s) ∧
    ((SortedKeywords { s with sortMode := SortMode.Alpha }).Perm (keywordsOf s) ∧
      List.Pairwise (fun a b => natLe a b = true)
        (SortedKeywords { s with sortMode := SortMode.Alpha }) ∧
      natCompare "item2" "item10" = Ordering.lt) ∧
    ((SortedKeywords { s with sortMode := SortMode.Recent }).Perm (keywordsOf s) ∧
      List.Pairwise (fun a b => tsOf s.recents b ≤ tsOf s.recents a)
        (SortedKeywords { s with sortMode := SortMode.Recent })) := by
  refine ⟨rfl, ⟨?_, ?_, by decide⟩, ?_, ?_⟩
  · exact List.mergeSort_perm _ _
  · exact List.sorted_mergeSort (fun a b c => natLe_trans a b c) natLe_total _
  · exact List.mergeSort_perm _ _
  · have h := @List.sorted_mergeSort String
      (fun a b => decide (tsOf s.recents b ≤ tsOf s.recents a))
      (fun a b c hab hbc => by
        simp only [decide_eq_true_eq] at hab hbc ⊢
        omega)
      (fun a b => by
        simp only [Bool.or_eq_true, decide_eq_true_eq]
        omega)
      (s.entries.map (fun e => e.keyword))
    exact h.imp (fun hx => by simpa using hx)

/-! ### Claim C10 -/

/-- The claim's per-line rule for the entries file: a line without an
equals sign, or whose key or value is empty after trimming, is skipped;
otherwise the untrimmed key and value are kept. -/
def parseEntryLine (line : String) : Option ShortcutEntry :=
  match splitOnce line '=' with
  | none => none
  | some (key, value) =>
    if (strTrim key).toList.isEmpty || (strTrim value).toList.isEmpty then none
    else some { keyword := key, path := value }

/-- The claim's per-line rule for the expiry/recency files: a line
without an equals sign, or whose trimmed value does not parse as a u64,
is skipped. -/
def parseNumLine (line : String) : Option (String × Nat) :=
  match splitOnce line '=' with
  | none => none
  | some (key, value) => (parseU64 (strTrim value)).map (fun n => (key, n))

/-- C10: loading never fails — both readers are total functions keeping
exactly the well-formed records: LoadConfigEntries keeps the lines
accepted by parseEntryLine in order, and LoadNumberMap folds the lines
accepted by parseNumLine into the map (later lines overriding earlier
ones); the concrete conjuncts show the skip cases of the claim. -/
theorem claim_C10 (lines : List String) :
    LoadConfigEntries lines = lines.filterMap parseEntryLine ∧
    LoadNumberMap lines =
      (lines.filterMap parseNumLine).foldl (fun m p => mapInsert m p.1 p.2) [] ∧
    parseEntryLine "malformed line" = none ∧
    parseEntryLine "  =path" = none ∧
    parseEntryLine "key=  " = none ∧
    parseEntryLine "k=/x" = some ⟨"k", "/x"⟩ ∧
    parseNumLine "malformed line" = none ∧
    parseNumLine "k=12x" = none ∧
    parseNumLine "k=99999999999999999999999999" = none ∧
    parseNumLine "k= 34" = some ("k", 34) := by
  refine ⟨?_, ?_, by decide, by decide, by decide, by decide, by decide,
    by decide, by decide, by decide⟩
  · induction lines with
    | nil => rfl
    | cons line rest ih =>
      rw [List.filterMap_cons]
      unfold LoadConfigEntries
      cases hsp : splitOnce line '=' with
      | none =>
        simp only [parseEntryLine, hsp]
        exact ih
      | some kv =>
        obtain ⟨key, value⟩ := kv
        simp only [parseEntryLine, hsp]
        split <;> rename_i hc <;> simp [hc, ih]
  · unfold LoadNumberMap
    suffices h : ∀ acc : List (String × Nat),
        lines.foldl
          (fun map line =>
            match splitOnce line '=' with
            | none => map
            | some (key, value) =>
              match parseU64 (strTrim value) with
              | none => map
              | some number => mapInsert map key number)
          acc =
        (lines.filterMap parseNumLine).foldl (fun m p => mapInsert m p.1 p.2) acc by
      exact h []
    induction lines with
    | nil => intro acc; rfl
    | cons line rest ih =>
      intro acc
      rw [List.filterMap_cons]
      simp only [List.foldl_cons]
      cases hsp : splitOnce line '=' with
      | none =>
        simp only [parseNumLine, hsp]
        exact ih acc
      | some kv =>
        obtain ⟨key, value⟩ := kv
        simp only [parseNumLine, hsp]
        cases hp : parseU64 (strTrim value) with
        | none =>
          simp only [hp, Option.map_none']
          exact ih acc
        | some n =>
          simp only [hp, Option.map_some']
          rw [List.foldl_cons]
          exact ih (mapInsert acc key n)

end Goto
